import Mathlib

/-!
Verification of the rv32emu execution core (src/rv32_template.c) and its
utility module (src/utils.c) against the natural-language specification.

The instruction semantics below are shallow embeddings of the C instruction
bodies in rv32_template.c: machine words are `Nat` values below 2^32, signed
views are obtained through `toInt32`, and every C assignment to a `uint32_t`
lvalue is rendered with an explicit truncation.  Components of the repository
that are referenced by the core but are not part of the two source files
(the `RV_EXC_MISALIGN_HANDLER` macro body, the decoder, and the dispatch
loop) are modelled from the specification; each such definition carries a
doc comment starting with "Modelled from the spec".
-/

namespace RV32

/-- 2^32, the modulus of the 32-bit machine words. -/
def M32 : Nat := 4294967296

/-- 2^64, the modulus of 64-bit intermediate values. -/
def M64 : Nat := 18446744073709551616

/-- Reinterpret a 32-bit unsigned value (a `Nat` below 2^32) as a signed
32-bit integer, as the C casts `(int32_t) x` do. -/
def toInt32 (x : Nat) : Int := if x < 2147483648 then (x : Int) else (x : Int) - 4294967296

/-- Truncate a signed integer to a 32-bit unsigned value, as C conversion to
`uint32_t` does. -/
def toU32 (i : Int) : Nat := (i % 4294967296).toNat

/-- Truncate a signed integer to a 64-bit unsigned value, as C conversion to
`uint64_t` does. -/
def toU64 (i : Int) : Nat := (i % 18446744073709551616).toNat

theorem toU32_ofNat {n : Nat} (h : n < M32) : toU32 (n : Int) = n := by
  unfold toU32
  rw [Int.emod_eq_of_lt (by positivity) (by exact_mod_cast h)]
  exact Int.toNat_natCast n

theorem toU32_toInt32 {x : Nat} (hx : x < M32) : toU32 (toInt32 x) = x := by
  unfold toInt32 toU32 M32 at *
  split
  · rw [Int.emod_eq_of_lt (by positivity) (by exact_mod_cast hx)]
    exact Int.toNat_natCast x
  · have h1 : ((x : Int) - 4294967296) % 4294967296 = (x : Int) % 4294967296 := by
      omega
    rw [h1, Int.emod_eq_of_lt (by positivity) (by exact_mod_cast hx)]
    exact Int.toNat_natCast x

theorem toInt32_eq_zero_iff {x : Nat} (hx : x < M32) : toInt32 x = 0 ↔ x = 0 := by
  unfold toInt32 M32 at *
  split <;> omega

theorem toInt32_eq_neg_one_iff {x : Nat} (hx : x < M32) : toInt32 x = -1 ↔ x = M32 - 1 := by
  unfold toInt32 M32 at *
  split <;> omega

/-! ## M-extension division and remainder (claim C3)

Shallow embedding of the result value written to `rd` by the C bodies of
`RVOP(div)`, `RVOP(divu)`, `RVOP(rem)` and `RVOP(remu)` in
src/rv32_template.c, as a function of the two source-register values.
C's `/` and `%` on `int32_t` truncate toward zero, which is `Int.tdiv` and
`Int.tmod`. -/

/-- DIV (signed divide) result, from `RVOP(div)`:
`!divisor ? ~0U : (divisor == -1 && rs1 == 0x80000000) ? rs1
: (unsigned) (dividend / divisor)`. -/
def div_result (rs1v rs2v : Nat) : Nat :=
  let dividend : Int := toInt32 rs1v
  let divisor : Int := toInt32 rs2v
  if divisor = 0 then 4294967295
  else if divisor = -1 ∧ rs1v = 2147483648 then rs1v
  else toU32 (Int.tdiv dividend divisor)

/-- DIVU (unsigned divide) result, from `RVOP(divu)`:
`!udivisor ? ~0U : udividend / udivisor`. -/
def divu_result (rs1v rs2v : Nat) : Nat :=
  if rs2v = 0 then 4294967295 else rs1v / rs2v

/-- REM (signed remainder) result, from `RVOP(rem)`:
`!divisor ? dividend : (divisor == -1 && rs1 == 0x80000000) ? 0
: dividend % divisor`. -/
def rem_result (rs1v rs2v : Nat) : Nat :=
  let dividend : Int := toInt32 rs1v
  let divisor : Int := toInt32 rs2v
  if divisor = 0 then toU32 dividend
  else if divisor = -1 ∧ rs1v = 2147483648 then 0
  else toU32 (Int.tmod dividend divisor)

/-- REMU (unsigned remainder) result, from `RVOP(remu)`:
`!udivisor ? udividend : udividend % udivisor`. -/
def remu_result (rs1v rs2v : Nat) : Nat :=
  if rs2v = 0 then rs1v else rs1v % rs2v

/-- Claim C3: the division and remainder instructions follow the RISC-V
special cases: DIV by zero gives all-ones, signed overflow DIV gives the
dividend, REM by zero gives the dividend, signed overflow REM gives 0,
DIVU by zero gives all-ones, REMU by zero gives the dividend, and otherwise
the quotient and remainder truncated toward zero are written. -/
theorem C3_div_rem_special_cases (x y : Nat) (hx : x < M32) (hy : y < M32) :
    (y = 0 → div_result x y = 4294967295) ∧
    (x = 2147483648 ∧ y = 4294967295 → div_result x y = 2147483648) ∧
    (y = 0 → rem_result x y = x) ∧
    (x = 2147483648 ∧ y = 4294967295 → rem_result x y = 0) ∧
    (y = 0 → divu_result x y = 4294967295) ∧
    (y = 0 → remu_result x y = x) ∧
    (y ≠ 0 → ¬(x = 2147483648 ∧ y = 4294967295) →
      div_result x y = toU32 (Int.tdiv (toInt32 x) (toInt32 y)) ∧
      rem_result x y = toU32 (Int.tmod (toInt32 x) (toInt32 y))) ∧
    (y ≠ 0 → divu_result x y = x / y ∧ remu_result x y = x % y) := by
  have hz := toInt32_eq_zero_iff hy
  have hneg := toInt32_eq_neg_one_iff hy
  have hM : M32 - 1 = 4294967295 := by norm_num [M32]
  refine ⟨?_, ?_, ?_, ?_, ?_, ?_, ?_, ?_⟩
  · intro h; subst h
    simp [div_result, hz.mpr rfl]
  · rintro ⟨h1, h2⟩; subst h1; subst h2
    have : toInt32 4294967295 = -1 := hneg.mpr (by norm_num [M32])
    have hz' : ¬ (toInt32 4294967295 = 0) := by rw [this]; decide
    simp [div_result, this, hz']
  · intro h; subst h
    simp [rem_result, hz.mpr rfl, toU32_toInt32 hx]
  · rintro ⟨h1, h2⟩; subst h1; subst h2
    have : toInt32 4294967295 = -1 := hneg.mpr (by norm_num [M32])
    have hz' : ¬ (toInt32 4294967295 = 0) := by rw [this]; decide
    simp [rem_result, this, hz']
  · intro h; simp [divu_result, h]
  · intro h; simp [remu_result, h]
  · intro h hno
    have h0 : ¬ (toInt32 y = 0) := fun hc => h (hz.mp hc)
    have h1 : ¬ (toInt32 y = -1 ∧ x = 2147483648) := by
      rintro ⟨hc1, hc2⟩
      exact hno ⟨hc2, by rw [← hM]; exact hneg.mp hc1⟩
    constructor
    · simp only [div_result, if_neg h0, if_neg h1]
    · simp only [rem_result, if_neg h0, if_neg h1]
  · intro h
    constructor
    · simp [divu_result, h]
    · simp [remu_result, h]

/-- Witness for C3 at concrete operands: x = 0x80000000, y = 0xFFFFFFFF
takes the signed-overflow branch of DIV and REM. -/
theorem C3_div_rem_special_cases_witness :
    div_result 2147483648 4294967295 = 2147483648 ∧
    rem_result 2147483648 4294967295 = 0 ∧
    div_result 7 0 = 4294967295 ∧
    divu_result 10 3 = 3 := by
  refine ⟨?_, ?_, ?_, ?_⟩
  · exact (C3_div_rem_special_cases 2147483648 4294967295 (by norm_num [M32])
      (by norm_num [M32])).2.1 ⟨rfl, rfl⟩
  · exact (C3_div_rem_special_cases 2147483648 4294967295 (by norm_num [M32])
      (by norm_num [M32])).2.2.2.1 ⟨rfl, rfl⟩
  · exact (C3_div_rem_special_cases 7 0 (by norm_num [M32]) (by norm_num [M32])).1 rfl
  · have := ((C3_div_rem_special_cases 10 3 (by norm_num [M32])
      (by norm_num [M32])).2.2.2.2.2.2.2 (by norm_num)).1
    simpa using this

/-! ## M-extension high multiplications (claim C7) -/

/-- MULH result, from `RVOP(mulh)`: the int64 product of the sign-extended
operands, cast to uint64 and shifted right by 32, truncated to 32 bits by
the store into `rd`. -/
def mulh_result (x y : Nat) : Nat :=
  (toU64 (toInt32 x * toInt32 y) >>> 32) % M32

/-- MULHSU result, from `RVOP(mulhsu)`: the C multiplication
`multiplicand * umultiplier` of an `int64_t` by a `uint64_t` converts the
signed factor to `uint64_t` and multiplies modulo 2^64; the result is
shifted right by 32 and truncated to 32 bits. -/
def mulhsu_result (x y : Nat) : Nat :=
  ((((toU64 (toInt32 x) * y) % M64)) >>> 32) % M32

/-- MULHU result, from `RVOP(mulhu)`: the uint64 product shifted right
by 32, truncated to 32 bits. -/
def mulhu_result (x y : Nat) : Nat :=
  ((x * y) >>> 32) % M32

/-- The upper 32 bits of the 64-bit two's-complement representation of an
exact integer product: the claim side of C7. -/
def high32 (p : Int) : Nat := (p % 18446744073709551616).toNat / 4294967296

theorem toU64_lt (i : Int) : toU64 i < M64 := by
  unfold toU64 M64
  have h1 : (0 : Int) ≤ i % 18446744073709551616 := Int.emod_nonneg i (by norm_num)
  have h2 : i % 18446744073709551616 < 18446744073709551616 :=
    Int.emod_lt_of_pos i (by norm_num)
  omega

/-- Claim C7: MULH, MULHSU and MULHU write the upper 32 bits of the exact
64-bit product, with MULH treating both operands as signed, MULHSU treating
rs1 as signed and rs2 as unsigned, and MULHU treating both as unsigned. -/
theorem C7_mulh_family (x y : Nat) (hx : x < M32) (hy : y < M32) :
    mulh_result x y = high32 (toInt32 x * toInt32 y) ∧
    mulhsu_result x y = high32 (toInt32 x * (y : Int)) ∧
    mulhu_result x y = high32 ((x : Int) * (y : Int)) := by
  have key : ∀ i : Int, (toU64 i >>> 32) % M32 = high32 i := by
    intro i
    have hlt : toU64 i < M64 := toU64_lt i
    have hdiv : toU64 i >>> 32 = toU64 i / 4294967296 := Nat.shiftRight_eq_div_pow _ 32
    have hsmall : toU64 i / 4294967296 < M32 := by
      unfold M64 M32 at *
      omega
    rw [hdiv, Nat.mod_eq_of_lt hsmall]
    rfl
  refine ⟨key _, ?_, ?_⟩
  · -- MULHSU: the uint64 wrap-around product agrees with the exact product mod 2^64.
    have hwrap : (toU64 (toInt32 x) * y) % M64 = toU64 (toInt32 x * y) := by
      unfold toU64 M64
      have hy64 : (y : Int) % 18446744073709551616 = y := by
        refine Int.emod_eq_of_lt (by positivity) ?_
        have hy' : y < 18446744073709551616 := by unfold M32 at hy; omega
        exact_mod_cast hy'
      have hnn : (0 : Int) ≤ toInt32 x % 18446744073709551616 :=
        Int.emod_nonneg _ (by norm_num)
      have hInt : ((toInt32 x % 18446744073709551616) * (y : Int)) % 18446744073709551616 =
          (toInt32 x * y) % 18446744073709551616 := by
        rw [Int.mul_emod (toInt32 x) (y : Int), hy64]
      have hgoal : (((toInt32 x % 18446744073709551616).toNat * y) %
          18446744073709551616 : Nat) =
          ((toInt32 x * y) % 18446744073709551616).toNat := by
        have h2 : (0 : Int) ≤ (toInt32 x * y) % 18446744073709551616 :=
          Int.emod_nonneg _ (by norm_num)
        zify
        rw [Int.toNat_of_nonneg hnn, Int.toNat_of_nonneg h2]
        exact hInt
      exact hgoal
    unfold mulhsu_result
    rw [hwrap]
    exact key _
  · -- MULHU: x*y is below 2^64, so the Nat product is already the exact product mod 2^64.
    have hlt : x * y < M64 := by
      have h1 : x ≤ 4294967295 := by unfold M32 at hx; omega
      have h2 : y ≤ 4294967295 := by unfold M32 at hy; omega
      have h3 := Nat.mul_le_mul h1 h2
      unfold M64
      omega
    unfold mulhu_result high32
    have hcast : (((x : Int) * y) % 18446744073709551616).toNat = x * y := by
      have : ((x : Int) * y) % 18446744073709551616 = (x : Int) * y := by
        refine Int.emod_eq_of_lt (by positivity) ?_
        unfold M64 at hlt
        exact_mod_cast hlt
      rw [this]
      exact_mod_cast Int.toNat_natCast (x * y)
    rw [hcast, Nat.shiftRight_eq_div_pow]
    have hsmall : x * y / 2 ^ 32 < M32 := by
      unfold M64 M32 at *
      omega
    rw [Nat.mod_eq_of_lt hsmall]
    norm_num

/-- Witness for C7 at concrete operands. -/
theorem C7_mulh_family_witness :
    mulh_result 4294967295 4294967295 = 0 ∧
    mulhsu_result 4294967295 2 = 4294967295 ∧
    mulhu_result 4294967295 4294967295 = 4294967294 := by
  have h := C7_mulh_family 4294967295 4294967295 (by norm_num [M32]) (by norm_num [M32])
  have h2 := C7_mulh_family 4294967295 2 (by norm_num [M32]) (by norm_num [M32])
  refine ⟨?_, ?_, ?_⟩
  · rw [h.1]; decide
  · rw [h2.2.1]; decide
  · rw [h.2.2]; decide

/-! ## Machine state and control transfer -/

/-- The 32-entry general register file `rv->X`. -/
abbrev Regs := Fin 32 → Nat

/-- A register write, the C assignment `rv->X[rd] = v`. -/
def wr (X : Regs) (rd : Fin 32) (v : Nat) : Regs := fun i => if i = rd then v else X i

/-- The architectural state touched by the embedded instructions: the
register file and the program counter. -/
structure RVState where
  X : Regs
  PC : Nat

/-- The exception classes raised by the misalignment handler. -/
inductive Exc where
  | insnMisaligned (addr : Nat)
  | loadMisaligned (addr : Nat)
  | storeMisaligned (addr : Nat)
deriving DecidableEq

/-- Outcome of one instruction: either the instruction retires with the new
state, or an exception is raised; the state carried by `trap` records the
register writes already committed when the handler fired (the PC is not
committed on a trap). -/
inductive Out where
  | ok (s : RVState)
  | trap (e : Exc) (s : RVState)

def Out.retired : Out → Bool
  | .ok _ => true
  | .trap _ _ => false

def Out.state : Out → RVState
  | .ok s => s
  | .trap _ s => s

def Out.exc? : Out → Option Exc
  | .ok _ => none
  | .trap e _ => some e

/-- Modelled from the spec: the body of `RV_EXC_MISALIGN_HANDLER(_, insn, _, 0)`
is declared outside src/.  Per the spec (§4.5 and the glossary entry
"Misalignment") a control-transfer target is misaligned when its low bits
violate the size-specific alignment rule, and with the C extension in scope
(RV32-IMC; the spec's scenario 6 lands on 0x1002) instruction alignment is
2 bytes, so the check is on bit 0 of the target. -/
def insnMisalign (pc : Nat) : Bool := pc % 2 != 0

theorem insnMisalign_eq_false {pc : Nat} (h : pc % 2 = 0) : insnMisalign pc = false := by
  simp [insnMisalign, h]

theorem insnMisalign_eq_true {pc : Nat} (h : pc % 2 = 1) : insnMisalign pc = true := by
  simp [insnMisalign, h]

theorem and_mask_even (a : Nat) : (a &&& 4294967294) % 2 = 0 := by
  have h : ¬ ((a &&& 4294967294) % 2 = 1) := by
    rw [@Nat.and_mod_two_eq_one a 4294967294]
    omega
  omega

/-- JALR, from `RVOP(jalr)`: the target is `(X[rs1] + imm) & ~1u`; the link
register receives `pc + 4` when `rd != 0`; then the instruction
misalignment check runs on the new PC (reporting the old pc). -/
def jalr (s : RVState) (rd rs1 : Fin 32) (imm : Nat) : Out :=
  let pc := s.PC
  let PC1 := ((s.X rs1 + imm) % M32) &&& 4294967294
  let X1 := if (rd : Nat) ≠ 0 then wr s.X rd ((pc + 4) % M32) else s.X
  if insnMisalign PC1 then .trap (.insnMisaligned pc) { s with X := X1 }
  else .ok { X := X1, PC := PC1 }

/-- C.JR, from `RVOP(cjr)`: `PC = X[rs1]`, with no low-bit clearing, no link
and no misalignment check. -/
def cjr (s : RVState) (rs1 : Fin 32) : Out := .ok { s with PC := s.X rs1 }

/-- C.JALR, from `RVOP(cjalr)`: `jump_to = X[rs1]` is read first, then
`X[ra] = PC + 2`, then `PC = jump_to` (no low-bit clearing) and the
instruction misalignment check on the new PC. -/
def cjalr (s : RVState) (rs1 : Fin 32) : Out :=
  let jump_to := s.X rs1
  let X1 := wr s.X 1 ((s.PC + 2) % M32)
  if insnMisalign jump_to then .trap (.insnMisaligned jump_to) { s with X := X1 }
  else .ok { X := X1, PC := jump_to }

/-- JAL, from `RVOP(jal)`: `PC += imm`; link `pc + 4` into `rd` when
`rd != 0`; misalignment check on the new PC reporting the old pc. -/
def jal (s : RVState) (rd : Fin 32) (imm : Nat) : Out :=
  let pc := s.PC
  let PC1 := (pc + imm) % M32
  let X1 := if (rd : Nat) ≠ 0 then wr s.X rd ((pc + 4) % M32) else s.X
  if insnMisalign PC1 then .trap (.insnMisaligned pc) { s with X := X1 }
  else .ok { X := X1, PC := PC1 }

/-- C.JAL, from `RVOP(cjal)`: `X[ra] = PC + 2`; `PC += imm`; misalignment
check on the new PC. -/
def cjal (s : RVState) (imm : Nat) : Out :=
  let X1 := wr s.X 1 ((s.PC + 2) % M32)
  let PC1 := (s.PC + imm) % M32
  if insnMisalign PC1 then .trap (.insnMisaligned PC1) { s with X := X1 }
  else .ok { X := X1, PC := PC1 }

/-- C.J, from `RVOP(cj)`: `PC += imm`; misalignment check; no link. -/
def cj (s : RVState) (imm : Nat) : Out :=
  let PC1 := (s.PC + imm) % M32
  if insnMisalign PC1 then .trap (.insnMisaligned PC1) s
  else .ok { s with PC := PC1 }

/-- A state whose register x5 holds the odd address 0x1003 (= 4099). -/
def oddTargetState : RVState :=
  { X := fun i => if (i : Nat) = 5 then 4099 else 0, PC := 4096 }

/-- Counterexample to claim C1 as stated: executing C.JR on a register
holding 0x1003 commits PC = 0x1003 with the low bit still set; the code
does not clear the least-significant bit for C.JR. -/
theorem C1_counterexample :
    (cjr oddTargetState 5).retired = true ∧
    (cjr oddTargetState 5).state.PC = 4099 ∧
    (cjr oddTargetState 5).state.PC % 2 = 1 ∧
    (cjr oddTargetState 5).state.PC ≠ (oddTargetState.X 5) &&& 4294967294 := by
  refine ⟨rfl, rfl, rfl, ?_⟩
  decide

/-- A state for the claim's JALR example: x2 holds 0x1003, pc = 100. -/
def jalrExState : RVState :=
  { X := fun i => if (i : Nat) = 2 then 4099 else 0, PC := 100 }

/-- Claim C1, amended: JALR clears the least-significant bit of its computed
target `(X[rs1] + imm) & ~1` and links `pc+4` into `rd` exactly when
`rd != 0` (in particular a computed target 0x1003 yields PC = 0x1002 and
X[1] = pc+4); but C.JR sets PC = X[rs1] unchanged with no clearing, and
C.JALR sets PC = X[rs1] unchanged, links `ra = pc+2`, and raises the
instruction-misalignment exception when X[rs1] is odd. -/
theorem C1_jalr_class (s : RVState) (rd rs1 : Fin 32) (imm : Nat) :
    ((jalr s rd rs1 imm).retired = true ∧
     (jalr s rd rs1 imm).state.PC = ((s.X rs1 + imm) % M32) &&& 4294967294 ∧
     (jalr s rd rs1 imm).state.PC % 2 = 0 ∧
     ((rd : Nat) ≠ 0 → (jalr s rd rs1 imm).state.X rd = (s.PC + 4) % M32) ∧
     ((rd : Nat) = 0 → (jalr s rd rs1 imm).state.X = s.X)) ∧
    (cjr s rs1 = .ok { s with PC := s.X rs1 }) ∧
    ((cjalr s rs1).state.X 1 = (s.PC + 2) % M32 ∧
     (s.X rs1 % 2 = 0 →
       cjalr s rs1 = .ok { X := wr s.X 1 ((s.PC + 2) % M32), PC := s.X rs1 }) ∧
     (s.X rs1 % 2 = 1 →
       (cjalr s rs1).exc? = some (.insnMisaligned (s.X rs1)))) ∧
    ((jalr jalrExState 1 2 0).state.PC = 4098 ∧
     (jalr jalrExState 1 2 0).state.X 1 = 104) := by
  have heven := and_mask_even ((s.X rs1 + imm) % M32)
  have hmis := insnMisalign_eq_false heven
  refine ⟨⟨?_, ?_, ?_, ?_, ?_⟩, rfl, ⟨?_, ?_, ?_⟩, ?_, ?_⟩
  · simp only [jalr, hmis]
    rfl
  · simp only [jalr, hmis]
    rfl
  · simp only [jalr, hmis]
    exact heven
  · intro h
    simp only [jalr, hmis, if_pos h]
    simp [Out.state, wr]
  · intro h
    simp only [jalr, hmis]
    have : ¬ ((rd : Nat) ≠ 0) := by omega
    simp [this, Out.state]
  · by_cases hm : insnMisalign (s.X rs1) <;> simp [cjalr, hm, Out.state, wr]
  · intro h
    simp only [cjalr, insnMisalign_eq_false h]
    rfl
  · intro h
    simp only [cjalr, insnMisalign_eq_true h]
    rfl
  · rfl
  · rfl

/-- Witness for the amended C1 at a register value with the low bit set:
C.JALR traps while C.JR retires with the odd PC. -/
theorem C1_jalr_class_witness :
    (cjalr oddTargetState 5).exc? = some (.insnMisaligned 4099) ∧
    (jalr jalrExState 1 2 0).state.PC = 4098 := by
  constructor
  · have h := (C1_jalr_class oddTargetState 1 5 0).2.2.1.2.2 (by decide)
    rw [h]
    decide
  · exact (C1_jalr_class jalrExState 1 2 0).2.2.2.1

/-! ## Branches (claim C5) -/

/-- The skeleton of the C `BRANCH_FUNC(type, cond)` macro from
src/rv32_template.c, with the pre-linked successor plumbing stripped (it
only affects dispatch, not the architectural state): when the C condition
`c` holds the branch is NOT taken and `PC += 4`; otherwise `PC += imm`
and the instruction-misalignment check runs on the new PC (reporting the
old pc). -/
def branch_func (c : Prop) [Decidable c] (s : RVState) (imm : Nat) : Out :=
  if c then .ok { s with PC := (s.PC + 4) % M32 }
  else
    let PC1 := (s.PC + imm) % M32
    if insnMisalign PC1 then .trap (.insnMisaligned s.PC) s
    else .ok { s with PC := PC1 }

/-- BEQ, from `RVOP(beq)`: `BRANCH_FUNC(uint32_t, !=)`. -/
def beq (s : RVState) (rs1 rs2 : Fin 32) (imm : Nat) : Out :=
  branch_func (s.X rs1 ≠ s.X rs2) s imm

/-- BNE, from `RVOP(bne)`: `BRANCH_FUNC(uint32_t, ==)`. -/
def bne (s : RVState) (rs1 rs2 : Fin 32) (imm : Nat) : Out :=
  branch_func (s.X rs1 = s.X rs2) s imm

/-- BLT, from `RVOP(blt)`: `BRANCH_FUNC(int32_t, >=)`. -/
def blt (s : RVState) (rs1 rs2 : Fin 32) (imm : Nat) : Out :=
  branch_func (toInt32 (s.X rs1) ≥ toInt32 (s.X rs2)) s imm

/-- BGE, from `RVOP(bge)`: `BRANCH_FUNC(int32_t, <)`. -/
def bge (s : RVState) (rs1 rs2 : Fin 32) (imm : Nat) : Out :=
  branch_func (toInt32 (s.X rs1) < toInt32 (s.X rs2)) s imm

/-- BLTU, from `RVOP(bltu)`: `BRANCH_FUNC(uint32_t, >=)`. -/
def bltu (s : RVState) (rs1 rs2 : Fin 32) (imm : Nat) : Out :=
  branch_func (s.X rs1 ≥ s.X rs2) s imm

/-- BGEU, from `RVOP(bgeu)`: `BRANCH_FUNC(uint32_t, <)`. -/
def bgeu (s : RVState) (rs1 rs2 : Fin 32) (imm : Nat) : Out :=
  branch_func (s.X rs1 < s.X rs2) s imm

/-- Branch behaviour as the claim states it: the branch is taken exactly
when `pred` holds; on a taken branch the next PC is `pc + imm` (with the
spec's misalignment exception on an odd target), otherwise `pc + 4`. -/
def branch_claim (pred : Prop) [Decidable pred] (s : RVState) (imm : Nat) : Out :=
  if pred then
    let PC1 := (s.PC + imm) % M32
    if insnMisalign PC1 then .trap (.insnMisaligned s.PC) s
    else .ok { s with PC := PC1 }
  else .ok { s with PC := (s.PC + 4) % M32 }

/-- ADDI, from `RVOP(addi)`: `X[rd] = (int32_t) X[rs1] + imm` (a 32-bit
wrap-around addition on the stored bit patterns). -/
def addi (s : RVState) (rd rs1 : Fin 32) (imm : Nat) : RVState :=
  { s with X := wr s.X rd ((s.X rs1 + imm) % M32) }

/-- Modelled from the spec (§4.4): dispatch advances the PC by the
instruction size (4 here) for non-control instructions; control transfers
set the PC themselves. -/
def stepAddi (s : RVState) (rd rs1 : Fin 32) (imm : Nat) : RVState :=
  { addi s rd rs1 imm with PC := (s.PC + 4) % M32 }

/-- The five-instruction BLT scenario of the spec (§8, scenario 2), laid
out at PCs 0, 4, 8, 12, 16 and driven by the PC as the dispatch loop does. -/
def scenarioStep (s : RVState) : Option RVState :=
  if s.PC = 0 then some (stepAddi s 1 0 5)
  else if s.PC = 4 then some (stepAddi s 2 0 3)
  else if s.PC = 8 then
    match blt s 2 1 8 with
    | .ok s' => some s'
    | .trap _ _ => none
  else if s.PC = 12 then some (stepAddi s 3 0 99)
  else if s.PC = 16 then some (stepAddi s 4 0 7)
  else none

def runScenario : Nat → RVState → RVState
  | 0, s => s
  | n + 1, s =>
    match scenarioStep s with
    | some s' => runScenario n s'
    | none => s

def zeroState : RVState := { X := fun _ => 0, PC := 0 }

/-- Claim C5: each branch is taken exactly when its comparison predicate
holds (equality, inequality, signed/unsigned less-than and
greater-or-equal), the next PC is pc+imm on taken and pc+4 otherwise, and
the five-instruction BLT scenario ends with X[3] = 0, X[4] = 7, PC = 20. -/
theorem C5_branches (s : RVState) (rs1 rs2 : Fin 32) (imm : Nat) :
    (beq s rs1 rs2 imm = branch_claim (s.X rs1 = s.X rs2) s imm) ∧
    (bne s rs1 rs2 imm = branch_claim (s.X rs1 ≠ s.X rs2) s imm) ∧
    (blt s rs1 rs2 imm = branch_claim (toInt32 (s.X rs1) < toInt32 (s.X rs2)) s imm) ∧
    (bge s rs1 rs2 imm = branch_claim (toInt32 (s.X rs1) ≥ toInt32 (s.X rs2)) s imm) ∧
    (bltu s rs1 rs2 imm = branch_claim (s.X rs1 < s.X rs2) s imm) ∧
    (bgeu s rs1 rs2 imm = branch_claim (s.X rs1 ≥ s.X rs2) s imm) ∧
    ((runScenario 4 zeroState).X 3 = 0 ∧
     (runScenario 4 zeroState).X 4 = 7 ∧
     (runScenario 4 zeroState).PC = 20) := by
  refine ⟨?_, ?_, ?_, ?_, ?_, ?_, by decide, by decide, by decide⟩
  · by_cases h : s.X rs1 = s.X rs2
    · simp only [beq, branch_func, branch_claim]
      rw [if_neg (not_not_intro h), if_pos h]
    · simp only [beq, branch_func, branch_claim]
      rw [if_pos h, if_neg h]
  · by_cases h : s.X rs1 = s.X rs2
    · simp only [bne, branch_func, branch_claim]
      rw [if_pos h, if_neg (not_not_intro h)]
    · simp only [bne, branch_func, branch_claim]
      rw [if_neg h, if_pos h]
  · by_cases h : toInt32 (s.X rs1) < toInt32 (s.X rs2)
    · simp only [blt, branch_func, branch_claim]
      rw [if_neg (not_le.mpr h), if_pos h]
    · simp only [blt, branch_func, branch_claim]
      rw [if_pos (not_lt.mp h), if_neg h]
  · by_cases h : toInt32 (s.X rs1) < toInt32 (s.X rs2)
    · simp only [bge, branch_func, branch_claim]
      rw [if_pos h, if_neg (not_le.mpr h)]
    · simp only [bge, branch_func, branch_claim]
      rw [if_neg h, if_pos (not_lt.mp h)]
  · by_cases h : s.X rs1 < s.X rs2
    · simp only [bltu, branch_func, branch_claim]
      rw [if_neg (not_le.mpr h), if_pos h]
    · simp only [bltu, branch_func, branch_claim]
      rw [if_pos (not_lt.mp h), if_neg h]
  · by_cases h : s.X rs1 < s.X rs2
    · simp only [bgeu, branch_func, branch_claim]
      rw [if_pos h, if_neg (not_le.mpr h)]
    · simp only [bgeu, branch_func, branch_claim]
      rw [if_neg h, if_pos (not_lt.mp h)]

/-! ## JAL-class jumps (claim C6) -/

/-- Claim C6: a JAL-class instruction with a link register (JAL with
`rd != 0`; C.JAL implicitly links ra) writes `pc + isize` (4 for JAL, 2 for
C.JAL) to the link register, the next PC is `pc + imm`, and a misaligned
target raises the misalignment exception at the jump instruction (C.J
transfers without linking). -/
theorem C6_jal_class (s : RVState) (rd : Fin 32) (imm : Nat) :
    ((rd : Nat) ≠ 0 → (jal s rd imm).state.X rd = (s.PC + 4) % M32) ∧
    ((s.PC + imm) % M32 % 2 = 0 →
      jal s rd imm = .ok { X := if (rd : Nat) ≠ 0 then wr s.X rd ((s.PC + 4) % M32) else s.X,
                           PC := (s.PC + imm) % M32 }) ∧
    ((s.PC + imm) % M32 % 2 = 1 → (jal s rd imm).exc? = some (.insnMisaligned s.PC)) ∧
    ((cjal s imm).state.X 1 = (s.PC + 2) % M32) ∧
    ((s.PC + imm) % M32 % 2 = 0 →
      cjal s imm = .ok { X := wr s.X 1 ((s.PC + 2) % M32), PC := (s.PC + imm) % M32 }) ∧
    ((s.PC + imm) % M32 % 2 = 1 →
      (cjal s imm).exc? = some (.insnMisaligned ((s.PC + imm) % M32))) ∧
    ((s.PC + imm) % M32 % 2 = 0 → cj s imm = .ok { s with PC := (s.PC + imm) % M32 }) ∧
    ((s.PC + imm) % M32 % 2 = 1 →
      (cj s imm).exc? = some (.insnMisaligned ((s.PC + imm) % M32))) := by
  refine ⟨?_, ?_, ?_, ?_, ?_, ?_, ?_, ?_⟩
  · intro h
    by_cases hm : insnMisalign ((s.PC + imm) % M32) <;>
      simp [jal, hm, Out.state, if_pos h, wr]
  · intro h
    simp only [jal, insnMisalign_eq_false h]
    rfl
  · intro h
    simp only [jal, insnMisalign_eq_true h]
    rfl
  · by_cases hm : insnMisalign ((s.PC + imm) % M32) <;>
      simp [cjal, hm, Out.state, wr]
  · intro h
    simp only [cjal, insnMisalign_eq_false h]
    rfl
  · intro h
    simp only [cjal, insnMisalign_eq_true h]
    rfl
  · intro h
    simp only [cj, insnMisalign_eq_false h]
    rfl
  · intro h
    simp only [cj, insnMisalign_eq_true h]
    rfl

/-- Witness for C6 at a concrete state: JAL from pc = 8 with imm = 16 and
rd = x1 links 12; C.J from pc = 8 with imm = 5 raises the misalignment
exception on the odd target 13. -/
theorem C6_jal_class_witness :
    (jal { X := fun _ => 0, PC := 8 } 1 16).state.X 1 = 12 ∧
    (cj { X := fun _ => 0, PC := 8 } 5).exc? = some (.insnMisaligned 13) := by
  constructor
  · have h := (C6_jal_class { X := fun _ => 0, PC := 8 } 1 16).1 (by decide)
    rw [h]
    norm_num [M32]
  · have h := (C6_jal_class { X := fun _ => 0, PC := 8 } 1 5).2.2.2.2.2.2.2
      (by norm_num [M32])
    rw [h]
    norm_num [M32]

/-! ## Writes to x0 (claim C2) -/

/-- The internal `nop` operation, from `RVOP(nop)`:
`rv->X[rv_reg_zero] = 0`. -/
def nop (s : RVState) : RVState := { s with X := wr s.X 0 0 }

/-- Modelled from the spec (§3 "register 0 conceptually writable but
observably zero ... simplest invariant: ... prohibit writes when rd==0"):
the decoder and dispatcher are outside src/; an instruction decoded with
`rd = 0` and no side effect is dispatched as the internal `nop` operation
of src/rv32_template.c, which resets X[0] to zero. -/
def execRdZero (s : RVState) : RVState := nop s

/-- Claim C2: after executing any instruction whose destination register is
x0 the observed value of X[0] is zero, and instructions writing a register
`rd != 0` leave X[0] untouched, so a write to index 0 is never observable
on a subsequent read. -/
theorem C2_x0_writes (s : RVState) (rd rs1 : Fin 32) (imm : Nat) :
    (execRdZero s).X 0 = 0 ∧
    ((rd : Nat) ≠ 0 → (addi s rd rs1 imm).X 0 = s.X 0) := by
  constructor
  · simp [execRdZero, nop, wr]
  · intro h
    have hne : (0 : Fin 32) ≠ rd := by
      intro hc
      exact h (by rw [← hc]; rfl)
    simp [addi, wr, if_neg hne]

/-- Witness for C2 at a concrete state: a corrupted X[0] is reset by the
rd = 0 dispatch, and `addi x5, x0, 9` leaves X[0] at zero. -/
theorem C2_x0_writes_witness :
    (execRdZero { X := fun _ => 77, PC := 0 }).X 0 = 0 ∧
    (addi zeroState 5 0 9).X 0 = 0 := by
  constructor
  · exact (C2_x0_writes { X := fun _ => 77, PC := 0 } 5 0 9).1
  · have h := (C2_x0_writes zeroState 5 0 9).2 (by decide)
    rw [h]
    rfl

/-! ## Loads and stores: misalignment (claim C4)

The `RV_EXC_MISALIGN_HANDLER(mask, type, _, 1)` macro body is outside
src/; it is modelled from the spec (§4.5): "byte access is always aligned;
halfword requires bit-0 clear; word requires bits 1:0 clear.  Misaligned
access raises a load- or store-misalignment exception; the core must not
invoke the memory callback for a misaligned access."  The macro guards the
callback invocation, so on a misaligned address the instruction raises the
exception and returns with no callback call and no register or memory
change.  Each semantics below also returns the list of host-callback
invocations it performed. -/

/-- One host memory-callback invocation. -/
inductive MemEv where
  | read_b (addr : Nat)
  | read_s (addr : Nat)
  | read_w (addr : Nat)
  | write_b (addr v : Nat)
  | write_s (addr v : Nat)
  | write_w (addr v : Nat)
deriving DecidableEq

/-- Modelled from the spec: `sign_extend_b` of the header, sign extension
of the low byte returned by the byte callback. -/
def sign_extend_b (v : Nat) : Nat :=
  let b := v % 256
  if b < 128 then b else b + 4294967040

/-- Modelled from the spec: `sign_extend_h` of the header, sign extension
of the low halfword returned by the halfword callback. -/
def sign_extend_h (v : Nat) : Nat :=
  let h := v % 65536
  if h < 32768 then h else h + 4294901760

/-- LB, from `RVOP(lb)`: no alignment check; the byte callback runs. -/
def lb (read_byte : Nat → Nat) (s : RVState) (rd rs1 : Fin 32) (imm : Nat) :
    Out × List MemEv :=
  let addr := (s.X rs1 + imm) % M32
  (.ok { s with X := wr s.X rd (sign_extend_b (read_byte addr)) }, [.read_b addr])

/-- LBU, from `RVOP(lbu)`: no alignment check; zero extension by the
uint8 return type. -/
def lbu (read_byte : Nat → Nat) (s : RVState) (rd rs1 : Fin 32) (imm : Nat) :
    Out × List MemEv :=
  let addr := (s.X rs1 + imm) % M32
  (.ok { s with X := wr s.X rd (read_byte addr % 256) }, [.read_b addr])

/-- LH, from `RVOP(lh)`: misalignment check with mask 1 before the
halfword callback. -/
def lh (read_half : Nat → Nat) (s : RVState) (rd rs1 : Fin 32) (imm : Nat) :
    Out × List MemEv :=
  let addr := (s.X rs1 + imm) % M32
  if addr % 2 ≠ 0 then (.trap (.loadMisaligned addr) s, [])
  else (.ok { s with X := wr s.X rd (sign_extend_h (read_half addr)) }, [.read_s addr])

/-- LHU, from `RVOP(lhu)`: misalignment check with mask 1 before the
halfword callback; zero extension by the uint16 return type. -/
def lhu (read_half : Nat → Nat) (s : RVState) (rd rs1 : Fin 32) (imm : Nat) :
    Out × List MemEv :=
  let addr := (s.X rs1 + imm) % M32
  if addr % 2 ≠ 0 then (.trap (.loadMisaligned addr) s, [])
  else (.ok { s with X := wr s.X rd (read_half addr % 65536) }, [.read_s addr])

/-- LW, from `RVOP(lw)`: misalignment check with mask 3 before the word
callback. -/
def lw (read_word : Nat → Nat) (s : RVState) (rd rs1 : Fin 32) (imm : Nat) :
    Out × List MemEv :=
  let addr := (s.X rs1 + imm) % M32
  if addr % 4 ≠ 0 then (.trap (.loadMisaligned addr) s, [])
  else (.ok { s with X := wr s.X rd (read_word addr % M32) }, [.read_w addr])

/-- SB, from `RVOP(sb)`: no alignment check; the byte callback runs with
the low byte of X[rs2]. -/
def sb (s : RVState) (rs1 rs2 : Fin 32) (imm : Nat) : Out × List MemEv :=
  let addr := (s.X rs1 + imm) % M32
  (.ok s, [.write_b addr (s.X rs2 % 256)])

/-- SH, from `RVOP(sh)`: misalignment check with mask 1 before the
halfword callback. -/
def sh (s : RVState) (rs1 rs2 : Fin 32) (imm : Nat) : Out × List MemEv :=
  let addr := (s.X rs1 + imm) % M32
  if addr % 2 ≠ 0 then (.trap (.storeMisaligned addr) s, [])
  else (.ok s, [.write_s addr (s.X rs2 % 65536)])

/-- SW, from `RVOP(sw)`: misalignment check with mask 3 before the word
callback. -/
def sw (s : RVState) (rs1 rs2 : Fin 32) (imm : Nat) : Out × List MemEv :=
  let addr := (s.X rs1 + imm) % M32
  if addr % 4 ≠ 0 then (.trap (.storeMisaligned addr) s, [])
  else (.ok s, [.write_w addr (s.X rs2 % M32)])

/-- C.LW, from `RVOP(clw)`: the same word-aligned load as LW with a
zero-extended immediate. -/
def clw (read_word : Nat → Nat) (s : RVState) (rd rs1 : Fin 32) (imm : Nat) :
    Out × List MemEv :=
  let addr := (s.X rs1 + imm) % M32
  if addr % 4 ≠ 0 then (.trap (.loadMisaligned addr) s, [])
  else (.ok { s with X := wr s.X rd (read_word addr % M32) }, [.read_w addr])

/-- C.SW, from `RVOP(csw)`: the same word-aligned store as SW. -/
def csw (s : RVState) (rs1 rs2 : Fin 32) (imm : Nat) : Out × List MemEv :=
  let addr := (s.X rs1 + imm) % M32
  if addr % 4 ≠ 0 then (.trap (.storeMisaligned addr) s, [])
  else (.ok s, [.write_w addr (s.X rs2 % M32)])

/-- Claim C4: for halfword accesses with bit 0 of the effective address set
and word accesses with bits 1:0 not both clear, the memory callback is not
invoked (the event list is empty), a load- or store-misalignment exception
is raised, and the machine state is unchanged; byte accesses never
misalign. -/
theorem C4_misaligned_access (read_byte read_half read_word : Nat → Nat)
    (s : RVState) (rd rs1 rs2 : Fin 32) (imm : Nat) :
    (((s.X rs1 + imm) % M32) % 2 ≠ 0 →
      lh read_half s rd rs1 imm = (.trap (.loadMisaligned ((s.X rs1 + imm) % M32)) s, []) ∧
      lhu read_half s rd rs1 imm = (.trap (.loadMisaligned ((s.X rs1 + imm) % M32)) s, []) ∧
      sh s rs1 rs2 imm = (.trap (.storeMisaligned ((s.X rs1 + imm) % M32)) s, [])) ∧
    (((s.X rs1 + imm) % M32) % 4 ≠ 0 →
      lw read_word s rd rs1 imm = (.trap (.loadMisaligned ((s.X rs1 + imm) % M32)) s, []) ∧
      sw s rs1 rs2 imm = (.trap (.storeMisaligned ((s.X rs1 + imm) % M32)) s, []) ∧
      clw read_word s rd rs1 imm = (.trap (.loadMisaligned ((s.X rs1 + imm) % M32)) s, []) ∧
      csw s rs1 rs2 imm = (.trap (.storeMisaligned ((s.X rs1 + imm) % M32)) s, [])) ∧
    ((lb read_byte s rd rs1 imm).1.retired = true ∧
     (lbu read_byte s rd rs1 imm).1.retired = true ∧
     (sb s rs1 rs2 imm).1.retired = true) := by
  refine ⟨?_, ?_, rfl, rfl, rfl⟩
  · intro h
    exact ⟨by simp only [lh, if_pos h], by simp only [lhu, if_pos h],
      by simp only [sh, if_pos h]⟩
  · intro h
    exact ⟨by simp only [lw, if_pos h], by simp only [sw, if_pos h],
      by simp only [clw, if_pos h], by simp only [csw, if_pos h]⟩

/-- Witness for C4 at the odd address 7 and the word-misaligned address 6:
the callbacks are not invoked and the exception is raised. -/
theorem C4_misaligned_access_witness :
    lh (fun _ => 0) { X := fun _ => 7, PC := 0 } 1 2 0 =
      (.trap (.loadMisaligned 7) { X := fun _ => 7, PC := 0 }, []) ∧
    sw { X := fun _ => 6, PC := 0 } 1 2 0 =
      (.trap (.storeMisaligned 6) { X := fun _ => 6, PC := 0 }, []) := by
  constructor
  · have h := (C4_misaligned_access (fun _ => 0) (fun _ => 0) (fun _ => 0)
      { X := fun _ => 7, PC := 0 } 1 2 3 0).1 (by decide)
    have h2 := h.1
    simpa [M32] using h2
  · have h := (C4_misaligned_access (fun _ => 0) (fun _ => 0) (fun _ => 0)
      { X := fun _ => 6, PC := 0 } 1 2 3 0).2.1 (by decide)
    have h2 := h.2.1
    simpa [M32] using h2

/-! ## C.SRAI versus SRAI (claim C8) -/

/-- C.SRAI, from `RVOP(csrai)`: `mask = 0x80000000 & X[rs1]`;
`X[rs1] >>= shamt`; then `for (i = 0; i < shamt; ++i) X[rs1] |= mask >> i`. -/
def csrai (x shamt : Nat) : Nat :=
  let mask := 2147483648 &&& x
  let x1 := x >>> shamt
  (List.range shamt).foldl (fun acc i => acc ||| (mask >>> i)) x1

/-- SRAI, from `shift_func` (case `rv_insn_srai`):
`((int32_t) X[rs1]) >> (imm & 0x1f)`; the arithmetic right shift of a
two's-complement value is the floor division of the signed value by
2^shamt. -/
def srai (x imm : Nat) : Nat := toU32 (toInt32 x / ((2 : Int) ^ (imm &&& 31)))

theorem and_top_of_lt {x : Nat} (h : x < 2147483648) : 2147483648 &&& x = 0 := by
  apply Nat.eq_of_testBit_eq
  intro i
  simp only [Nat.testBit_and, Nat.zero_testBit]
  have h31 : (2147483648 : Nat) = 2 ^ 31 := by norm_num
  rcases eq_or_ne i 31 with rfl | hi
  · rw [Nat.testBit_lt_two_pow (show x < 2 ^ 31 by omega)]
    simp
  · rw [h31, Nat.testBit_two_pow_of_ne (show 31 ≠ i by omega)]
    simp

theorem and_top_of_ge {x : Nat} (h1 : 2147483648 ≤ x) (h2 : x < 4294967296) :
    2147483648 &&& x = 2147483648 := by
  apply Nat.eq_of_testBit_eq
  intro i
  simp only [Nat.testBit_and]
  have h31 : (2147483648 : Nat) = 2 ^ 31 := by norm_num
  rcases eq_or_ne i 31 with rfl | hi
  · have hx : x.testBit 31 = true := by
      rw [Nat.testBit_to_div_mod]
      have hd : x / 2 ^ 31 = 1 := by omega
      rw [hd]
      decide
    rw [hx, Bool.and_true]
  · rw [h31, Nat.testBit_two_pow_of_ne (show 31 ≠ i by omega), Bool.false_and]

theorem foldl_or_zero (l : List Nat) (a : Nat) :
    l.foldl (fun acc i => acc ||| (0 >>> i)) a = a := by
  induction l generalizing a with
  | nil => rfl
  | cons b bs ih =>
    rw [List.foldl_cons, Nat.zero_shiftRight, Nat.or_zero]
    exact ih a

theorem or_eq_add_of_dvd_of_lt {a b k : Nat} (hd : 2 ^ k ∣ a) (hb : b < 2 ^ k) :
    a ||| b = a + b := by
  obtain ⟨c, hc⟩ := hd
  subst hc
  exact (Nat.mul_add_lt_is_or hb c).symm

theorem foldl_or_topbit (n : Nat) (hn : n ≤ 31) (a : Nat) :
    (List.range n).foldl (fun acc i => acc ||| (2147483648 >>> i)) a =
      a ||| (4294967296 - 2 ^ (32 - n)) := by
  induction n generalizing a with
  | zero => simp
  | succ m ih =>
    rw [List.range_succ, List.foldl_append, ih (by omega)]
    simp only [List.foldl_cons, List.foldl_nil]
    rw [Nat.or_assoc]
    congr 1
    have hs : (2147483648 : Nat) >>> m = 2 ^ (31 - m) := by
      rw [Nat.shiftRight_eq_div_pow]
      have h31 : (2147483648 : Nat) = 2 ^ 31 := by norm_num
      rw [h31, Nat.pow_div (by omega) (by norm_num)]
    rw [hs]
    have hdvd : 2 ^ (32 - m) ∣ 4294967296 - 2 ^ (32 - m) := by
      refine Nat.dvd_sub' ?_ dvd_rfl
      have h32 : (4294967296 : Nat) = 2 ^ 32 := by norm_num
      rw [h32]
      exact pow_dvd_pow 2 (by omega)
    have hplt : (2 : Nat) ^ (31 - m) < 2 ^ (32 - m) :=
      Nat.pow_lt_pow_right (by norm_num) (by omega)
    rw [or_eq_add_of_dvd_of_lt hdvd hplt]
    have e0 : (2 : Nat) ^ (32 - (m + 1)) = 2 ^ (31 - m) := by
      congr 1
      omega
    rw [e0]
    have e1 : (2 : Nat) ^ (32 - m) = 2 * 2 ^ (31 - m) := by
      rw [← pow_succ']
      congr 1
      omega
    have e2 : (1 : Nat) ≤ 2 ^ (31 - m) := Nat.one_le_two_pow
    have e3 : (2 : Nat) ^ (32 - m) ≤ 4294967296 := by
      have h32 : (4294967296 : Nat) = 2 ^ 32 := by norm_num
      rw [h32]
      exact Nat.pow_le_pow_right (by norm_num) (by omega)
    omega

/-- Claim C8: for every 32-bit register value and shift amount in 0..31,
the C.SRAI implementation (logical shift then OR-ing in the sign-mask
bits) computes exactly the arithmetic right shift of the SRAI expansion
from `shift_func`. -/
theorem C8_csrai_eq_srai (x sh : Nat) (hx : x < M32) (hsh : sh < 32) :
    csrai x sh = srai x sh := by
  have hmask : sh &&& 31 = sh := by
    have h31 : (31 : Nat) = 2 ^ 5 - 1 := by norm_num
    rw [h31]
    exact Nat.and_pow_two_sub_one_of_lt_two_pow (by omega)
  have hpowmul : (2 : Nat) ^ (32 - sh) * 2 ^ sh = 4294967296 := by
    rw [← pow_add]
    have : 32 - sh + sh = 32 := by omega
    rw [this]
    norm_num
  have hqlt : x / 2 ^ sh < 2 ^ (32 - sh) := by
    refine Nat.div_lt_of_lt_mul ?_
    rw [Nat.mul_comm, hpowmul]
    exact lt_of_lt_of_le hx (by unfold M32; omega)
  rcases lt_or_ge x 2147483648 with hlt | hge
  · -- non-negative case: mask = 0, both sides are the logical shift
    unfold csrai srai
    rw [and_top_of_lt hlt, foldl_or_zero, hmask]
    have ht : toInt32 x = (x : Int) := by unfold toInt32; rw [if_pos hlt]
    rw [ht, Nat.shiftRight_eq_div_pow]
    have hdiv : (x : Int) / ((2 : Int) ^ sh) = ((x / 2 ^ sh : Nat) : Int) := by
      have h1 : ((x / 2 ^ sh : Nat) : Int) = (x : Int) / ((2 ^ sh : Nat) : Int) := by
        exact_mod_cast Int.ofNat_ediv x (2 ^ sh)
      rw [h1]
      congr 1
      push_cast
      rfl
    rw [hdiv, toU32_ofNat]
    exact lt_of_le_of_lt (Nat.div_le_self _ _) hx
  · -- negative case: mask = 0x80000000, the OR loop fills the high bits
    unfold csrai srai
    rw [and_top_of_ge hge (by unfold M32 at hx; omega), foldl_or_topbit sh (by omega),
      hmask, Nat.shiftRight_eq_div_pow]
    have hdvd : 2 ^ (32 - sh) ∣ 4294967296 - 2 ^ (32 - sh) := by
      refine Nat.dvd_sub' ?_ dvd_rfl
      have h32 : (4294967296 : Nat) = 2 ^ 32 := by norm_num
      rw [h32]
      exact pow_dvd_pow 2 (by omega)
    rw [Nat.lor_comm, or_eq_add_of_dvd_of_lt hdvd hqlt]
    have ht : toInt32 x = (x : Int) - 4294967296 := by
      unfold toInt32
      rw [if_neg (by omega)]
    rw [ht]
    have hsplit : (x : Int) - 4294967296 =
        (x : Int) + (-(((2 : Int) ^ (32 - sh)))) * ((2 : Int) ^ sh) := by
      have hc : ((2 : Int) ^ (32 - sh)) * ((2 : Int) ^ sh) = 4294967296 := by
        exact_mod_cast hpowmul
      have := hc
      nlinarith [hc]
    rw [hsplit, Int.add_mul_ediv_right _ _ (by positivity)]
    have hdiv : (x : Int) / ((2 : Int) ^ sh) = ((x / 2 ^ sh : Nat) : Int) := by
      have h1 : ((x / 2 ^ sh : Nat) : Int) = (x : Int) / ((2 ^ sh : Nat) : Int) := by
        exact_mod_cast Int.ofNat_ediv x (2 ^ sh)
      rw [h1]
      congr 1
      push_cast
      rfl
    rw [hdiv]
    unfold toU32
    have hc2 : ((2 : Int) ^ (32 - sh)) = (((2 ^ (32 - sh) : Nat)) : Int) := by
      push_cast
      rfl
    rw [hc2]
    have e2 : (1 : Nat) ≤ 2 ^ (32 - sh) := Nat.one_le_two_pow
    have e3 : (2 : Nat) ^ (32 - sh) ≤ 4294967296 := by
      have h32 : (4294967296 : Nat) = 2 ^ 32 := by norm_num
      rw [h32]
      exact Nat.pow_le_pow_right (by norm_num) (by omega)
    generalize hgq : x / 2 ^ sh = q at hqlt ⊢
    generalize hgt : (2 : Nat) ^ (32 - sh) = t at hqlt e2 e3 ⊢
    omega

/-- Witness for C8: arithmetic shift of the negative value 0xFFFFFFF8 (-8)
by 2 gives 0xFFFFFFFE (-2), and of 0x00000028 (40) by 3 gives 5. -/
theorem C8_csrai_eq_srai_witness :
    csrai 4294967288 2 = srai 4294967288 2 ∧
    csrai 4294967288 2 = 4294967294 ∧
    csrai 40 3 = srai 40 3 ∧
    csrai 40 3 = 5 := by
  refine ⟨?_, by decide, ?_, by decide⟩
  · exact C8_csrai_eq_srai 4294967288 2 (by norm_num [M32]) (by norm_num)
  · exact C8_csrai_eq_srai 40 3 (by norm_num [M32]) (by norm_num)

/-! ## The open-addressed set of src/utils.c (claim C9)

`set_add` and `set_has` scan the row `table[set_hash(key)]` from slot 0,
stopping at the first zero entry; the row length `SET_SLOTS_SIZE` and the
hash function `set_hash` (from `HASH_FUNC_IMPL`, outside src/) are
abstracted: a row is a `List Nat` and the hash an arbitrary function, used
identically by both operations.  Running past the last slot corresponds to
the C `assert(count < SET_SLOTS_SIZE)` firing; it is rendered as `none`
(respectively the `full` outcome below). -/

/-- Result of the `set_add` row scan. -/
inductive AddRes where
  | dup
  | full
  | ok (row : List Nat)
deriving DecidableEq

/-- The `set_add` scan loop, from src/utils.c: walk the row while entries
are nonzero; return `false` (here `dup`) on finding the key; write the key
into the first zero slot. -/
def row_add (key : Nat) : List Nat → AddRes
  | [] => .full
  | e :: rest =>
    if e = 0 then .ok (key :: rest)
    else if e = key then .dup
    else
      match row_add key rest with
      | .ok r => .ok (e :: r)
      | .dup => .dup
      | .full => .full

/-- The `set_has` scan loop, from src/utils.c: walk the row while entries
are nonzero; report whether the key was seen before the first zero entry. -/
def row_has (key : Nat) : List Nat → Option Bool
  | [] => none
  | e :: rest =>
    if e = 0 then some false
    else if e = key then some true
    else row_has key rest

/-- The set: a table of rows indexed by the hash value. -/
structure SetT where
  table : Nat → List Nat

/-- `set_add`, from src/utils.c, with the row selected by an arbitrary
hash function; `none` models the assertion failure on a full row. -/
def set_add (hash : Nat → Nat) (s : SetT) (key : Nat) : Option (Bool × SetT) :=
  match row_add key (s.table (hash key)) with
  | .dup => some (false, s)
  | .full => none
  | .ok r => some (true, ⟨fun i => if i = hash key then r else s.table i⟩)

/-- `set_has`, from src/utils.c. -/
def set_has (hash : Nat → Nat) (s : SetT) (key : Nat) : Option Bool :=
  row_has key (s.table (hash key))

theorem row_add_ok_has_self {key : Nat} (hk : key ≠ 0) :
    ∀ {row r : List Nat}, row_add key row = .ok r → row_has key r = some true := by
  intro row
  induction row with
  | nil =>
    intro r h
    simp [row_add] at h
  | cons e rest ih =>
    intro r h
    by_cases he : e = 0
    · rw [row_add, if_pos he] at h
      rcases h with ⟨⟩
      rw [row_has, if_neg hk, if_pos rfl]
    · by_cases hek : e = key
      · rw [row_add, if_pos hek, if_neg he] at h
        simp at h
      · rw [row_add, if_neg he, if_neg hek] at h
        cases hr : row_add key rest with
        | dup => rw [hr] at h; simp at h
        | full => rw [hr] at h; simp at h
        | ok r' =>
          rw [hr] at h
          simp only [AddRes.ok.injEq] at h
          subst h
          rw [row_has, if_neg he, if_neg hek]
          exact ih hr

theorem row_has_ne_some_true_of_dup_ne {key : Nat} :
    ∀ {row : List Nat}, row_add key row ≠ .dup → row_has key row ≠ some true := by
  intro row
  induction row with
  | nil =>
    intro _ h
    simp [row_has] at h
  | cons e rest ih =>
    intro hadd hhas
    by_cases he : e = 0
    · rw [row_has, if_pos he] at hhas
      simp at hhas
    · by_cases hek : e = key
      · rw [row_add, if_pos hek, if_neg he] at hadd
        exact hadd rfl
      · rw [row_has, if_neg he, if_neg hek] at hhas
        rw [row_add, if_neg he, if_neg hek] at hadd
        refine ih ?_ hhas
        intro hc
        rw [hc] at hadd
        exact hadd rfl

theorem row_add_dup_has {key : Nat} :
    ∀ {row : List Nat}, row_add key row = .dup → row_has key row = some true := by
  intro row
  induction row with
  | nil =>
    intro h
    simp [row_add] at h
  | cons e rest ih =>
    intro h
    by_cases he : e = 0
    · rw [row_add, if_pos he] at h
      simp at h
    · by_cases hek : e = key
      · rw [row_has, if_neg he, if_pos hek]
      · rw [row_add, if_neg he, if_neg hek] at h
        rw [row_has, if_neg he, if_neg hek]
        cases hr : row_add key rest with
        | dup => exact ih hr
        | full => rw [hr] at h; simp at h
        | ok r' => rw [hr] at h; simp at h

theorem row_has_zero_ne_some_true :
    ∀ (row : List Nat), row_has 0 row ≠ some true := by
  intro row
  induction row with
  | nil => simp [row_has]
  | cons e rest ih =>
    by_cases he : e = 0
    · rw [row_has, if_pos he]
      simp
    · rw [row_has, if_neg he, if_neg he]
      exact ih

theorem row_add_zero_ok :
    ∀ {row r : List Nat}, row_add 0 row = .ok r → r = row ∧ row_has 0 r = some false := by
  intro row
  induction row with
  | nil =>
    intro r h
    simp [row_add] at h
  | cons e rest ih =>
    intro r h
    by_cases he : e = 0
    · rw [row_add, if_pos he] at h
      simp only [AddRes.ok.injEq] at h
      subst h
      subst he
      exact ⟨rfl, by rw [row_has, if_pos rfl]⟩
    · rw [row_add, if_neg he, if_neg he] at h
      cases hr : row_add 0 rest with
      | dup => rw [hr] at h; simp at h
      | full => rw [hr] at h; simp at h
      | ok r' =>
        rw [hr] at h
        simp only [AddRes.ok.injEq] at h
        subst h
        obtain ⟨h1, h2⟩ := ih hr
        subst h1
        exact ⟨rfl, by rw [row_has, if_neg he, if_neg he]; exact h2⟩

/-- Claim C9: for a nonzero key, after a returning `set_add` the key tests
present with `set_has`; `set_add` returns false, leaving the set unchanged,
exactly when the key was already present.  For key 0, `set_add` returns
true yet `set_has` still reports the key absent, so 0 is never observable
as a member. -/
theorem C9_set_add_has (hash : Nat → Nat) (s : SetT) (key : Nat) :
    (key ≠ 0 → ∀ b s', set_add hash s key = some (b, s') →
      set_has hash s' key = some true ∧
      (b = false ↔ set_has hash s key = some true) ∧
      (b = false → s' = s)) ∧
    (∀ b s', set_add hash s 0 = some (b, s') →
      b = true ∧ set_has hash s' 0 = some false) := by
  constructor
  · intro hk b s' hadd
    unfold set_add at hadd
    cases hr : row_add key (s.table (hash key)) with
    | dup =>
      rw [hr] at hadd
      simp only [Option.some_inj, Prod.mk.injEq] at hadd
      obtain ⟨hb, hs⟩ := hadd
      subst hb
      subst hs
      have hhas : set_has hash s key = some true := row_add_dup_has hr
      exact ⟨hhas, by simp [hhas], fun _ => rfl⟩
    | full =>
      rw [hr] at hadd
      simp at hadd
    | ok r =>
      rw [hr] at hadd
      simp only [Option.some_inj, Prod.mk.injEq] at hadd
      obtain ⟨hb, hs⟩ := hadd
      subst hb
      subst hs
      refine ⟨?_, ?_, ?_⟩
      · unfold set_has
        simp only [if_pos rfl]
        exact row_add_ok_has_self hk hr
      · constructor
        · intro h
          simp at h
        · intro h
          have hne := @row_has_ne_some_true_of_dup_ne key
            (s.table (hash key)) (by rw [hr]; intro hc; cases hc)
          exact absurd h hne
      · intro h
        simp at h
  · intro b s' hadd
    unfold set_add at hadd
    cases hr : row_add 0 (s.table (hash 0)) with
    | dup =>
      exact absurd (row_add_dup_has hr) (row_has_zero_ne_some_true _)
    | full =>
      rw [hr] at hadd
      simp at hadd
    | ok r =>
      rw [hr] at hadd
      simp only [Option.some_inj, Prod.mk.injEq] at hadd
      obtain ⟨hb, hs⟩ := hadd
      subst hb
      subst hs
      refine ⟨rfl, ?_⟩
      unfold set_has
      simp only [if_pos rfl]
      exact (row_add_zero_ok hr).2


/-- Witness for C9 on a two-slot table with a constant hash: inserting 5
makes it present; inserting 0 "succeeds" but stays unobservable. -/
theorem C9_set_add_has_witness :
    (∀ b s', set_add (fun _ => 0) ⟨fun _ => [0, 0]⟩ 5 = some (b, s') →
      set_has (fun _ => 0) s' 5 = some true) ∧
    (∀ b s', set_add (fun _ => 0) ⟨fun _ => [0, 0]⟩ 0 = some (b, s') →
      b = true ∧ set_has (fun _ => 0) s' 0 = some false) := by
  constructor
  · intro b s' h
    exact ((C9_set_add_has (fun _ => 0) ⟨fun _ => [0, 0]⟩ 5).1 (by decide) b s' h).1
  · intro b s' h
    exact (C9_set_add_has (fun _ => 0) ⟨fun _ => [0, 0]⟩ 0).2 b s' h

/-! ## sanitize_path (claim C10)

Shallow embedding of `sanitize_path` from src/utils.c.  The C function
scans the input once, writing into a buffer `ret[0..w)`; `r` is the read
index, `dotdot` the backtracking barrier.  Here the unread input is the
list argument and the written buffer is kept in reverse order (`bufR`,
head = most recently written byte), so the C index `w` is `bufR.length`.
The `..`-backtracking loop `w--; while (w > dotdot && ret[w] != '/') w--;`
becomes `bt`. -/

/-- The backtracking loop of the `..` case of `sanitize_path`: starting
from the reversed buffer, drop the last byte and keep dropping while the
byte at the new write position is not a slash and the position is above
`dotdot`; a slash found this way is dropped too. -/
def bt (dotdot : Nat) : List Char → List Char
  | [] => []
  | c :: r => if r.length > dotdot ∧ c ≠ '/' then bt dotdot r else r

/-- The scan loop of `sanitize_path`, from src/utils.c: skip empty and `.`
path elements, resolve `..` by backtracking (or append a literal `..` and
move the `dotdot` barrier when backtracking is impossible and the path is
relative), and copy real elements with a separating slash when the buffer
already holds an element. -/
def sanLoop (is_root : Bool) : List Char → List Char → Nat → List Char
  | [], bufR, _ => bufR
  | c :: rest, bufR, dotdot =>
    if c = '/' then
      sanLoop is_root rest bufR dotdot
    else if c = '.' ∧ (rest = [] ∨ rest.head? = some '/') then
      sanLoop is_root rest bufR dotdot
    else if c = '.' ∧ rest.head? = some '.' ∧
        (rest.tail = [] ∨ rest.tail.head? = some '/') then
      if bufR.length > dotdot then
        sanLoop is_root rest.tail (bt dotdot bufR) dotdot
      else if is_root = false then
        sanLoop is_root rest.tail
          ('.' :: '.' :: (if bufR.length > 0 then '/' :: bufR else bufR))
          ('.' :: '.' :: (if bufR.length > 0 then '/' :: bufR else bufR)).length
      else
        sanLoop is_root rest.tail bufR dotdot
    else
      sanLoop is_root (rest.dropWhile (fun ch => ch != '/'))
        ((rest.takeWhile (fun ch => ch != '/')).reverse ++ c ::
          (if (is_root = true ∧ bufR.length ≠ 1) ∨ (is_root = false ∧ bufR.length ≠ 0)
           then '/' :: bufR else bufR))
        dotdot
  termination_by inp _ _ => inp.length
  decreasing_by
    all_goals simp_wf
    all_goals try omega
    all_goals
      have h : (rest.dropWhile (fun ch => ch != '/')).length ≤ rest.length :=
        List.Sublist.length_le (List.dropWhile_sublist _)
    all_goals omega

/-- `sanitize_path`, from src/utils.c: empty input yields ".", an absolute
input starts the buffer with the leading slash (`w = 1`, `r = 1`,
`dotdot = 1`), the loop runs, and an empty result becomes ".". -/
def sanitize_path (input : List Char) : List Char :=
  match input with
  | [] => ['.']
  | c :: rest =>
    let R := if c = '/' then sanLoop true rest ['/'] 1 else sanLoop false (c :: rest) [] 0
    if R.length = 0 then ['.'] else R.reverse

/-! ### Normal forms of buffers reachable by the loop -/

/-- A real path element as copied by the loop: nonempty, slash-free, and
not one of the special elements "." and "..". -/
def goodElem (e : List Char) : Prop :=
  e ≠ [] ∧ '/' ∉ e ∧ e ≠ ['.'] ∧ e ≠ ['.', '.']

/-- Join path elements with slashes. -/
def joinS : List (List Char) → List Char
  | [] => []
  | [e] => e
  | e :: f :: es => e ++ '/' :: joinS (f :: es)

/-- A leading run of `..` elements in a relative path. -/
def dotdots (k : Nat) : List (List Char) := List.replicate k ['.', '.']

/-- The buffer contents (in forward order) of a reachable loop state: a
leading slash for absolute paths, then (for relative paths) `k` literal
`..` elements, then the copied elements. -/
def buf (root : Bool) (k : Nat) (elems : List (List Char)) : List Char :=
  if root then '/' :: joinS elems else joinS (dotdots k ++ elems)

/-- The `dotdot` barrier associated with a reachable state. -/
def ddOf (root : Bool) (k : Nat) : Nat :=
  if root then 1 else if k = 0 then 0 else 3 * k - 1

theorem joinS_cons (e : List Char) (l : List (List Char)) (hl : l ≠ []) :
    joinS (e :: l) = e ++ '/' :: joinS l := by
  cases l with
  | nil => exact absurd rfl hl
  | cons f es => rfl

theorem joinS_append {l1 l2 : List (List Char)} (h1 : l1 ≠ []) (h2 : l2 ≠ []) :
    joinS (l1 ++ l2) = joinS l1 ++ '/' :: joinS l2 := by
  induction l1 with
  | nil => exact absurd rfl h1
  | cons a as ih =>
    cases as with
    | nil =>
      rw [List.singleton_append, joinS_cons a l2 h2]
      rfl
    | cons b bs =>
      rw [List.cons_append, joinS_cons a ((b :: bs) ++ l2) (by simp),
        joinS_cons a (b :: bs) (by simp), ih (by simp)]
      simp

theorem joinS_ne_nil {l : List (List Char)} (h0 : ∀ e ∈ l, e ≠ []) (hl : l ≠ []) :
    joinS l ≠ [] := by
  cases l with
  | nil => exact absurd rfl hl
  | cons e es =>
    cases es with
    | nil => exact h0 e (by simp)
    | cons f fs =>
      rw [joinS_cons e (f :: fs) (by simp)]
      intro hc
      rcases List.append_eq_nil.mp hc with ⟨h1, h2⟩
      cases h2

theorem dotdots_succ (k : Nat) : dotdots (k + 1) = dotdots k ++ [['.', '.']] := by
  unfold dotdots
  rw [List.replicate_succ']

theorem dotdots_good : ∀ e ∈ dotdots k, e ≠ [] ∧ '/' ∉ e := by
  intro e he
  unfold dotdots at he
  rw [List.eq_of_mem_replicate he]
  refine ⟨by simp, by decide⟩

theorem joinS_dotdots_length (k : Nat) :
    (joinS (dotdots k)).length = if k = 0 then 0 else 3 * k - 1 := by
  induction k with
  | zero => rfl
  | succ m ih =>
    rw [dotdots_succ]
    rcases Nat.eq_zero_or_pos m with rfl | hm
    · rfl
    · have hne : dotdots m ≠ [] := by
        unfold dotdots
        simp
        omega
      rw [joinS_append hne (by simp), List.length_append, ih]
      have h3 : ('/' :: joinS [['.', '.']]).length = 3 := rfl
      rw [h3, if_neg (by omega : ¬ (m = 0)), if_neg (Nat.succ_ne_zero m)]
      omega

theorem bt_skip (dd : Nat) {E Q : List Char} (hE : ∀ ch ∈ E, ch ≠ '/')
    (hQ : dd ≤ Q.length) : bt dd (E ++ '/' :: Q) = Q := by
  induction E with
  | nil =>
    rw [List.nil_append]
    simp [bt]
  | cons a E2 ih =>
    rw [List.cons_append]
    simp only [bt]
    rw [if_pos ⟨by simp; omega, hE a (by simp)⟩]
    exact ih (fun ch hch => hE ch (by simp [hch]))

theorem bt_stop (dd : Nat) {E Q : List Char} (hE : ∀ ch ∈ E, ch ≠ '/')
    (hQ : Q.length = dd) (hne : E ≠ []) : bt dd (E ++ Q) = Q := by
  induction E with
  | nil => exact absurd rfl hne
  | cons a E2 ih =>
    rw [List.cons_append]
    simp only [bt]
    cases E2 with
    | nil =>
      rw [List.nil_append, if_neg (by rintro ⟨h1, h2⟩; omega)]
    | cons b E3 =>
      rw [if_pos ⟨by simp; omega, hE a (by simp)⟩]
      exact ih (fun ch hch => hE ch (by simp [hch])) (by simp)

theorem buf_false_nil (k : Nat) : buf false k [] = joinS (dotdots k) := by
  unfold buf
  simp

theorem buf_false_nil_length (k : Nat) : (buf false k []).length = ddOf false k := by
  rw [buf_false_nil, joinS_dotdots_length]
  unfold ddOf
  simp

theorem dotdots_ne_nil {k : Nat} (hk : k ≠ 0) : dotdots k ≠ [] := by
  unfold dotdots
  simp
  omega

theorem buf_append (root : Bool) (k : Nat) (elems : List (List Char)) (e : List Char)
    (hroot : root = true → k = 0) :
    buf root k (elems ++ [e]) =
      buf root k elems ++ (if elems = [] ∧ k = 0 then ([] : List Char) else ['/']) ++ e := by
  cases root with
  | true =>
    have hk := hroot rfl
    subst hk
    have hb1 : ∀ X : List (List Char), buf true 0 X = '/' :: joinS X := by
      intro X
      simp [buf]
    rw [hb1, hb1]
    cases elems with
    | nil => simp [joinS]
    | cons a as =>
      rw [if_neg (by simp), joinS_append (by simp) (by simp)]
      simp [joinS]
  | false =>
    have hb0 : ∀ X : List (List Char), buf false k X = joinS (dotdots k ++ X) := by
      intro X
      simp [buf]
    rw [hb0, hb0]
    by_cases hek : elems = [] ∧ k = 0
    · obtain ⟨he, hk⟩ := hek
      subst he
      subst hk
      simp [dotdots, joinS]
    · rw [if_neg hek]
      have hne : dotdots k ++ elems ≠ [] := by
        intro hc
        rcases List.append_eq_nil.mp hc with ⟨h1, h2⟩
        exact hek ⟨h2, by by_contra hk0; exact dotdots_ne_nil hk0 h1⟩
      rw [← List.append_assoc, joinS_append hne (by simp)]
      simp [joinS]

theorem dd_le_buf_length (root : Bool) (k : Nat) (elems : List (List Char))
    (hroot : root = true → k = 0) :
    ddOf root k ≤ (buf root k elems).length := by
  cases root with
  | true =>
    unfold buf ddOf
    simp
  | false =>
    rcases Nat.eq_zero_or_pos k with rfl | hk
    · unfold ddOf
      simp
    · cases elems with
      | nil =>
        rw [buf_false_nil_length]
      | cons a as =>
        unfold buf
        simp only [Bool.false_eq_true, if_false]
        rw [joinS_append (dotdots_ne_nil (by omega)) (by simp), List.length_append]
        have h1 := joinS_dotdots_length k
        rw [if_neg (by omega : ¬ (k = 0))] at h1
        have h2 : ddOf false k = 3 * k - 1 := by
          unfold ddOf
          simp only [Bool.false_eq_true, if_false]
          rw [if_neg (by omega : ¬ (k = 0))]
        rw [h2]
        omega

theorem buf_length_gt_iff (root : Bool) (k : Nat) (elems : List (List Char))
    (hroot : root = true → k = 0) (hgood : ∀ x ∈ elems, x ≠ []) :
    ddOf root k < (buf root k elems).length ↔ elems ≠ [] := by
  cases elems with
  | nil =>
    have hrhs : ((([] : List (List Char)) ≠ []) ↔ False) := by simp
    rw [hrhs, iff_false]
    cases root with
    | true =>
      have hk := hroot rfl
      subst hk
      decide
    | false =>
      rw [buf_false_nil_length]
      exact lt_irrefl _
  | cons a as =>
    have hrhs : ((a :: as ≠ []) ↔ True) := by simp
    rw [hrhs, iff_true]
    have hjoin : 0 < (joinS (a :: as)).length :=
      List.length_pos.mpr (joinS_ne_nil hgood (by simp))
    cases root with
    | true =>
      have h1 : buf true k (a :: as) = '/' :: joinS (a :: as) := by
        unfold buf
        rw [if_pos rfl]
      have h2 : ddOf true k = 1 := rfl
      rw [h1, h2, List.length_cons]
      omega
    | false =>
      have h1 : buf false k (a :: as) = joinS (dotdots k ++ a :: as) := by
        unfold buf
        simp
      rw [h1]
      rcases Nat.eq_zero_or_pos k with rfl | hk
      · have h2 : ddOf false 0 = 0 := rfl
        have h3 : dotdots 0 ++ a :: as = a :: as := by
          simp [dotdots]
        rw [h2, h3]
        omega
      · have h2 : ddOf false k = 3 * k - 1 := by
          unfold ddOf
          simp only [Bool.false_eq_true, if_false]
          rw [if_neg (by omega : ¬ (k = 0))]
        rw [h2, joinS_append (dotdots_ne_nil (by omega)) (by simp), List.length_append,
          List.length_cons]
        have h3 := joinS_dotdots_length k
        rw [if_neg (by omega : ¬ (k = 0))] at h3
        omega

theorem bt_buf (root : Bool) (k : Nat) (elems : List (List Char)) (e : List Char)
    (hroot : root = true → k = 0) (he1 : e ≠ []) (he2 : '/' ∉ e) :
    bt (ddOf root k) (buf root k (elems ++ [e])).reverse = (buf root k elems).reverse := by
  have hrevE : ∀ ch ∈ e.reverse, ch ≠ '/' := by
    intro ch hch hc
    subst hc
    exact he2 (List.mem_reverse.mp hch)
  have hrevNe : e.reverse ≠ [] := by
    simpa using he1
  rw [buf_append root k elems e hroot]
  by_cases hek : elems = [] ∧ k = 0
  · rw [if_pos hek]
    obtain ⟨hel, hk⟩ := hek
    subst hel
    subst hk
    cases root with
    | false =>
      have hb : buf false 0 [] = [] := by
        rw [buf_false_nil]
        rfl
      rw [hb]
      simp only [List.nil_append, List.reverse_nil]
      have h0 : ddOf false 0 = 0 := rfl
      rw [h0, ← List.append_nil e.reverse]
      exact bt_stop 0 hrevE rfl hrevNe
    | true =>
      have hb : buf true 0 [] = ['/'] := rfl
      rw [hb]
      have hrw : ((['/'] : List Char) ++ [] ++ e).reverse = e.reverse ++ ['/'] := by
        simp
      rw [hrw]
      have hdd : ddOf true 0 = 1 := rfl
      rw [hdd]
      exact bt_stop 1 hrevE rfl hrevNe
  · rw [if_neg hek]
    have hrw : (buf root k elems ++ ['/'] ++ e).reverse =
        e.reverse ++ '/' :: (buf root k elems).reverse := by
      simp
    rw [hrw]
    refine bt_skip _ hrevE ?_
    rw [List.length_reverse]
    exact dd_le_buf_length root k elems hroot

theorem dotdot_append_buf (k : Nat) :
    '.' :: '.' :: (if ((buf false k []).reverse).length > 0
      then '/' :: (buf false k []).reverse else (buf false k []).reverse) =
    (buf false (k + 1) []).reverse := by
  rcases Nat.eq_zero_or_pos k with rfl | hk
  · rfl
  · have hne : buf false k [] ≠ [] := by
      rw [buf_false_nil]
      exact joinS_ne_nil (fun x hx => (dotdots_good x hx).1) (dotdots_ne_nil (by omega))
    rw [if_pos (by simpa using List.length_pos.mpr hne)]
    have h1 : buf false (k + 1) [] = buf false k [] ++ '/' :: ['.', '.'] := by
      rw [buf_false_nil, buf_false_nil, dotdots_succ,
        joinS_append (dotdots_ne_nil (by omega)) (by simp)]
      rfl
    rw [h1]
    simp

theorem goodElem_append {elems : List (List Char)} {e : List Char}
    (h1 : ∀ x ∈ elems, goodElem x) (h2 : goodElem e) :
    ∀ x ∈ elems ++ [e], goodElem x := by
  intro x hx
  rcases List.mem_append.mp hx with h | h
  · exact h1 x h
  · rw [List.mem_singleton.mp h]
    exact h2

theorem takeWhile_nil_cases {p : Char → Bool} {l : List Char}
    (h : l.takeWhile p = []) : l = [] ∨ ∃ a t, l = a :: t ∧ p a = false := by
  cases l with
  | nil => exact Or.inl rfl
  | cons a t =>
    rw [List.takeWhile_cons] at h
    by_cases hp : p a = true
    · rw [if_pos hp] at h
      cases h
    · exact Or.inr ⟨a, t, rfl, by simpa using hp⟩

theorem goodElem_copy (c : Char) (rest : List Char)
    (h1 : ¬ (c = '/'))
    (h2 : ¬ (c = '.' ∧ (rest = [] ∨ rest.head? = some '/')))
    (h3 : ¬ (c = '.' ∧ rest.head? = some '.' ∧
      (rest.tail = [] ∨ rest.tail.head? = some '/'))) :
    goodElem (c :: rest.takeWhile (fun ch => ch != '/')) := by
  refine ⟨by simp, ?_, ?_, ?_⟩
  · intro hmem
    rcases List.mem_cons.mp hmem with hc | hc
    · exact h1 hc.symm
    · have hp := List.mem_takeWhile_imp hc
      simp at hp
  · intro hc
    rw [List.cons_eq_cons] at hc
    obtain ⟨hcv, htw⟩ := hc
    subst hcv
    rcases takeWhile_nil_cases htw with rfl | ⟨a, t, rfl, hpa⟩
    · exact h2 ⟨rfl, Or.inl rfl⟩
    · have ha : a = '/' := by simpa using hpa
      exact h2 ⟨rfl, Or.inr (by simp [ha])⟩
  · intro hc
    rw [List.cons_eq_cons] at hc
    obtain ⟨hcv, htw⟩ := hc
    subst hcv
    cases rest with
    | nil => simp at htw
    | cons a t =>
      rw [List.takeWhile_cons] at htw
      by_cases hpa : (a != '/') = true
      · rw [if_pos hpa] at htw
        rw [List.cons_eq_cons] at htw
        obtain ⟨hav, htw2⟩ := htw
        subst hav
        rcases takeWhile_nil_cases htw2 with rfl | ⟨b, u, rfl, hpb⟩
        · exact h3 ⟨rfl, by simp, Or.inl rfl⟩
        · have hb : b = '/' := by simpa using hpb
          exact h3 ⟨rfl, by simp, Or.inr (by simp [hb])⟩
      · rw [if_neg hpa] at htw
        cases htw

theorem buf_eq_nil_iff (k : Nat) (elems : List (List Char))
    (hgood : ∀ x ∈ elems, x ≠ []) :
    buf false k elems = [] ↔ (k = 0 ∧ elems = []) := by
  constructor
  · intro h
    by_contra hc
    have hne : dotdots k ++ elems ≠ [] := by
      intro hnil
      rcases List.append_eq_nil.mp hnil with ⟨hd, he⟩
      exact hc ⟨by by_contra hk0; exact dotdots_ne_nil hk0 hd, he⟩
    have hall : ∀ x ∈ dotdots k ++ elems, x ≠ [] := by
      intro x hx
      rcases List.mem_append.mp hx with h' | h'
      · exact (dotdots_good x h').1
      · exact hgood x h'
    have : buf false k elems ≠ [] := by
      have hb : buf false k elems = joinS (dotdots k ++ elems) := by simp [buf]
      rw [hb]
      exact joinS_ne_nil hall hne
    exact this h
  · rintro ⟨hk, he⟩
    subst hk
    subst he
    rfl

theorem needSlash_iff (root : Bool) (k : Nat) (elems : List (List Char))
    (hroot : root = true → k = 0) (hgood : ∀ x ∈ elems, x ≠ []) :
    ((root = true ∧ (buf root k elems).length ≠ 1) ∨
     (root = false ∧ (buf root k elems).length ≠ 0)) ↔ ¬ (elems = [] ∧ k = 0) := by
  cases root with
  | true =>
    have hk := hroot rfl
    subst hk
    have hb : buf true 0 elems = '/' :: joinS elems := by simp [buf]
    rw [hb]
    constructor
    · rintro (⟨_, h⟩ | ⟨hfalse, _⟩)
      · rintro ⟨hel, _⟩
        subst hel
        simp [joinS] at h
      · exact absurd hfalse (by decide)
    · intro h
      left
      refine ⟨rfl, ?_⟩
      have hel : elems ≠ [] := fun hc => h ⟨hc, rfl⟩
      have hnn : joinS elems ≠ [] := joinS_ne_nil hgood hel
      have hpos : 0 < (joinS elems).length := List.length_pos.mpr hnn
      simp only [List.length_cons]
      omega
  | false =>
    constructor
    · rintro (⟨hfalse, _⟩ | ⟨_, h⟩)
      · exact absurd hfalse (by decide)
      · rintro ⟨hel, hk⟩
        subst hel
        subst hk
        exact h rfl
    · intro h
      right
      refine ⟨rfl, ?_⟩
      intro hlen
      have hz : buf false k elems = [] := List.eq_nil_of_length_eq_zero hlen
      rcases (buf_eq_nil_iff k elems hgood).mp hz with ⟨hk, hel⟩
      exact h ⟨hel, hk⟩

theorem copy_buffer_eq (root : Bool) (k : Nat) (elems : List (List Char))
    (c : Char) (tw : List Char) (hroot : root = true → k = 0)
    (hgood : ∀ x ∈ elems, goodElem x) :
    tw.reverse ++ c :: (if (root = true ∧ (buf root k elems).reverse.length ≠ 1) ∨
        (root = false ∧ (buf root k elems).reverse.length ≠ 0)
      then '/' :: (buf root k elems).reverse else (buf root k elems).reverse) =
    (buf root k (elems ++ [c :: tw])).reverse := by
  have hC : ((root = true ∧ (buf root k elems).reverse.length ≠ 1) ∨
      (root = false ∧ (buf root k elems).reverse.length ≠ 0)) ↔
      ¬ (elems = [] ∧ k = 0) := by
    simp only [List.length_reverse]
    exact needSlash_iff root k elems hroot (fun x hx => (hgood x hx).1)
  rw [buf_append root k elems (c :: tw) hroot]
  by_cases hek : elems = [] ∧ k = 0
  · rw [if_neg (by rw [hC]; exact not_not_intro hek), if_pos hek]
    simp
  · rw [if_pos (hC.mpr hek), if_neg hek]
    simp

/-- The loop invariant: started on a normal-form buffer, the scan loop ends
on a normal-form buffer (a leading slash or a run of `..` elements,
followed by good path elements). -/
theorem sanLoop_nf : ∀ (n : Nat) (inp : List Char), inp.length ≤ n →
    ∀ (root : Bool) (k : Nat) (elems : List (List Char)),
    (∀ x ∈ elems, goodElem x) → (root = true → k = 0) →
    ∃ k2 elems2, (∀ x ∈ elems2, goodElem x) ∧ (root = true → k2 = 0) ∧
      sanLoop root inp (buf root k elems).reverse (ddOf root k) =
        (buf root k2 elems2).reverse := by
  intro n
  induction n with
  | zero =>
    intro inp hlen root k elems hgood hroot
    have hnil : inp = [] := List.eq_nil_of_length_eq_zero (by omega)
    subst hnil
    exact ⟨k, elems, hgood, hroot, by rw [sanLoop]⟩
  | succ n ih =>
    intro inp hlen root k elems hgood hroot
    cases inp with
    | nil => exact ⟨k, elems, hgood, hroot, by rw [sanLoop]⟩
    | cons c rest =>
      have hlen2 : rest.length ≤ n := by
        simp only [List.length_cons] at hlen
        omega
      rw [sanLoop]
      by_cases h1 : c = '/'
      · rw [if_pos h1]
        exact ih rest hlen2 root k elems hgood hroot
      · rw [if_neg h1]
        by_cases h2 : c = '.' ∧ (rest = [] ∨ rest.head? = some '/')
        · rw [if_pos h2]
          exact ih rest hlen2 root k elems hgood hroot
        · rw [if_neg h2]
          by_cases h3 : c = '.' ∧ rest.head? = some '.' ∧
              (rest.tail = [] ∨ rest.tail.head? = some '/')
          · rw [if_pos h3]
            have hlen3 : rest.tail.length ≤ n := by
              have ht := List.length_tail rest
              omega
            by_cases h4 : ((buf root k elems).reverse).length > ddOf root k
            · rw [if_pos h4]
              have hne : elems ≠ [] := by
                rw [List.length_reverse] at h4
                exact (buf_length_gt_iff root k elems hroot
                  (fun x hx => (hgood x hx).1)).mp h4
              rcases List.eq_nil_or_concat elems with rfl | ⟨elems0, e, rfl⟩
              · exact absurd rfl hne
              · simp only [List.concat_eq_append] at hgood ⊢
                have hgood0 : ∀ x ∈ elems0, goodElem x := fun x hx =>
                  hgood x (List.mem_append.mpr (Or.inl hx))
                have hge : goodElem e := hgood e (by simp)
                rw [bt_buf root k elems0 e hroot hge.1 hge.2.1]
                exact ih rest.tail hlen3 root k elems0 hgood0 hroot
            · rw [if_neg h4]
              have hel : elems = [] := by
                by_contra hne
                apply h4
                rw [List.length_reverse]
                exact (buf_length_gt_iff root k elems hroot
                  (fun x hx => (hgood x hx).1)).mpr hne
              subst hel
              by_cases h5 : root = false
              · rw [if_pos h5]
                subst h5
                rw [dotdot_append_buf k]
                have hddlen : ((buf false (k + 1) []).reverse).length =
                    ddOf false (k + 1) := by
                  rw [List.length_reverse, buf_false_nil_length]
                rw [hddlen]
                exact ih rest.tail hlen3 false (k + 1) [] (by simp) (by simp)
              · rw [if_neg h5]
                exact ih rest.tail hlen3 root k [] (by simp) hroot
          · rw [if_neg h3]
            have hge : goodElem (c :: rest.takeWhile (fun ch => ch != '/')) :=
              goodElem_copy c rest h1 h2 h3
            rw [copy_buffer_eq root k elems c (rest.takeWhile (fun ch => ch != '/'))
              hroot hgood]
            have hlen4 : (rest.dropWhile (fun ch => ch != '/')).length ≤ n := by
              have hd : (rest.dropWhile (fun ch => ch != '/')).length ≤ rest.length :=
                List.Sublist.length_le (List.dropWhile_sublist _)
              omega
            exact ih (rest.dropWhile (fun ch => ch != '/')) hlen4 root k
              (elems ++ [c :: rest.takeWhile (fun ch => ch != '/')])
              (goodElem_append hgood hge) hroot

theorem takeWhile_elem (e2 tail : List Char) (he : '/' ∉ e2)
    (htail : tail = [] ∨ tail.head? = some '/') :
    (e2 ++ tail).takeWhile (fun ch => ch != '/') = e2 ∧
    (e2 ++ tail).dropWhile (fun ch => ch != '/') = tail := by
  induction e2 with
  | nil =>
    rcases htail with rfl | hh
    · exact ⟨rfl, rfl⟩
    · cases tail with
      | nil => simp at hh
      | cons a t =>
        have ha : a = '/' := by simpa using hh
        subst ha
        rw [List.nil_append]
        constructor
        · rw [List.takeWhile_cons]
          simp
        · rw [List.dropWhile_cons]
          simp
  | cons a e3 ih =>
    have ha : a ≠ '/' := fun h => he (by simp [h])
    have he3 : '/' ∉ e3 := fun h => he (by simp [h])
    obtain ⟨ih1, ih2⟩ := ih he3
    rw [List.cons_append]
    constructor
    · rw [List.takeWhile_cons, if_pos (by simpa using ha), ih1]
    · rw [List.dropWhile_cons, if_pos (by simpa using ha), ih2]

theorem copy_branch_conds {c : Char} {e2 tail : List Char}
    (he2 : '/' ∉ (c :: e2)) (he3 : c :: e2 ≠ ['.']) (he4 : c :: e2 ≠ ['.', '.'])
    (htail : tail = [] ∨ tail.head? = some '/') :
    ¬ (c = '/') ∧
    ¬ (c = '.' ∧ ((e2 ++ tail) = [] ∨ (e2 ++ tail).head? = some '/')) ∧
    ¬ (c = '.' ∧ (e2 ++ tail).head? = some '.' ∧
        ((e2 ++ tail).tail = [] ∨ (e2 ++ tail).tail.head? = some '/')) := by
  refine ⟨fun hc => he2 (by simp [hc]), ?_, ?_⟩
  · rintro ⟨hc, hd⟩
    subst hc
    cases e2 with
    | nil =>
      rcases htail with rfl | hh
      · rcases hd with hnil | hhead
        · exact he3 rfl
        · rw [List.append_nil] at hhead
          simp at hhead
      · exact he3 rfl
    | cons a e3 =>
      have ha : a ≠ '/' := fun h => he2 (by simp [h])
      rcases hd with hnil | hhead
      · simp at hnil
      · rw [List.cons_append] at hhead
        simp at hhead
        exact ha hhead
  · rintro ⟨hc, hhead, htl⟩
    subst hc
    cases e2 with
    | nil =>
      rcases htail with rfl | hh
      · simp at hhead
      · rw [List.nil_append] at hhead
        rw [hh] at hhead
        simp at hhead
    | cons a e3 =>
      have ha : a = '.' := by
        rw [List.cons_append] at hhead
        simpa using hhead
      subst ha
      cases e3 with
      | nil => exact he4 rfl
      | cons b e4 =>
        have hb : b ≠ '/' := fun h => he2 (by simp [h])
        rcases htl with hnil | hh
        · rw [List.cons_append] at hnil
          simp at hnil
        · rw [List.cons_append] at hh
          simp at hh
          exact hb hh

/-- One real path element of rendered input is copied verbatim. -/
theorem copy_step (root : Bool) (k : Nat) (elems0 : List (List Char))
    (c : Char) (e2 tail : List Char) (hroot : root = true → k = 0)
    (hgood0 : ∀ x ∈ elems0, goodElem x) (hge : goodElem (c :: e2))
    (htail : tail = [] ∨ tail.head? = some '/') :
    sanLoop root ((c :: e2) ++ tail) (buf root k elems0).reverse (ddOf root k) =
      sanLoop root tail (buf root k (elems0 ++ [c :: e2])).reverse (ddOf root k) := by
  obtain ⟨he1, he2, he3, he4⟩ := hge
  obtain ⟨H1, H2, H3⟩ := copy_branch_conds he2 he3 he4 htail
  have he2' : '/' ∉ e2 := fun h => he2 (by simp [h])
  obtain ⟨htw, hdw⟩ := takeWhile_elem e2 tail he2' htail
  rw [List.cons_append, sanLoop, if_neg H1, if_neg H2, if_neg H3, htw, hdw,
    copy_buffer_eq root k elems0 c e2 hroot hgood0]

/-- One `..` element of rendered relative input re-appends itself. -/
theorem dotdot_step (k : Nat) (tail : List Char)
    (htail : tail = [] ∨ tail.head? = some '/') :
    sanLoop false ('.' :: '.' :: tail) (buf false k []).reverse (ddOf false k) =
      sanLoop false tail (buf false (k + 1) []).reverse (ddOf false (k + 1)) := by
  rw [sanLoop]
  have H1 : ¬ (('.' : Char) = '/') := by decide
  have H2 : ¬ (('.' : Char) = '.' ∧
      (('.' :: tail : List Char) = [] ∨ ('.' :: tail).head? = some '/')) := by
    rintro ⟨_, hd⟩
    rcases hd with hnil | hhead
    · cases hnil
    · simp at hhead
  have H3 : ('.' : Char) = '.' ∧ ('.' :: tail).head? = some '.' ∧
      (('.' :: tail).tail = [] ∨ ('.' :: tail).tail.head? = some '/') := by
    refine ⟨rfl, by simp, ?_⟩
    simpa using htail
  rw [if_neg H1, if_neg H2, if_pos H3]
  have H4 : ¬ ((buf false k []).reverse.length > ddOf false k) := by
    rw [List.length_reverse, buf_false_nil_length]
    omega
  rw [if_neg H4, if_pos rfl]
  have htl : ('.' :: tail).tail = tail := rfl
  rw [htl, dotdot_append_buf k]
  have hddlen : ((buf false (k + 1) []).reverse).length = ddOf false (k + 1) := by
    rw [List.length_reverse, buf_false_nil_length]
  rw [hddlen]

/-- Replaying a rendered run of good elements reproduces them one by one. -/
theorem replay_elems : ∀ (elems : List (List Char)), (∀ x ∈ elems, goodElem x) →
    ∀ (root : Bool) (k : Nat) (elems0 : List (List Char)),
    (∀ x ∈ elems0, goodElem x) → (root = true → k = 0) →
    sanLoop root (joinS elems) (buf root k elems0).reverse (ddOf root k) =
      (buf root k (elems0 ++ elems)).reverse := by
  intro elems
  induction elems with
  | nil =>
    intro _ root k elems0 _ _
    have h0 : joinS [] = ([] : List Char) := rfl
    rw [h0, sanLoop, List.append_nil]
  | cons e rest ih =>
    intro hgood root k elems0 hgood0 hroot
    have hge : goodElem e := hgood e (by simp)
    cases e with
    | nil => exact absurd rfl hge.1
    | cons c e2 =>
      cases rest with
      | nil =>
        have hj : joinS [c :: e2] = (c :: e2) ++ ([] : List Char) := by
          simp [joinS]
        rw [hj, copy_step root k elems0 c e2 [] hroot hgood0 hge (Or.inl rfl), sanLoop]
      | cons f fs =>
        have hj : joinS ((c :: e2) :: f :: fs) =
            (c :: e2) ++ '/' :: joinS (f :: fs) := joinS_cons _ _ (by simp)
        rw [hj, copy_step root k elems0 c e2 ('/' :: joinS (f :: fs)) hroot hgood0 hge
          (Or.inr rfl)]
        rw [sanLoop, if_pos rfl]
        have hgood1 : ∀ x ∈ f :: fs, goodElem x := fun x hx => hgood x (by simp [hx])
        have hgood0' : ∀ x ∈ elems0 ++ [c :: e2], goodElem x :=
          goodElem_append hgood0 hge
        rw [ih hgood1 root k (elems0 ++ [c :: e2]) hgood0' hroot]
        have hassoc : (elems0 ++ [c :: e2]) ++ (f :: fs) = elems0 ++ (c :: e2) :: f :: fs := by
          simp
        rw [hassoc]

/-- Replaying the rendered `..` prefix of a relative path re-appends each
`..`, then the elements replay. -/
theorem replay_dotdots : ∀ (j : Nat) (elems : List (List Char)),
    (∀ x ∈ elems, goodElem x) → ∀ (k : Nat),
    sanLoop false (joinS (dotdots j ++ elems)) (buf false k []).reverse (ddOf false k) =
      (buf false (k + j) elems).reverse := by
  intro j
  induction j with
  | zero =>
    intro elems hgood k
    have h0 : dotdots 0 ++ elems = elems := rfl
    rw [h0]
    have := replay_elems elems hgood false k [] (by simp) (by simp)
    rw [List.nil_append] at this
    rw [this, Nat.add_zero]
  | succ j ih =>
    intro elems hgood k
    have hsplit : dotdots (j + 1) ++ elems = ['.', '.'] :: (dotdots j ++ elems) := by
      simp [dotdots, List.replicate_succ]
    rw [hsplit]
    by_cases hnil : dotdots j ++ elems = []
    · rcases List.append_eq_nil.mp hnil with ⟨hd, he⟩
      have hj : j = 0 := by
        by_contra h0
        exact dotdots_ne_nil h0 hd
      subst hj
      subst he
      rw [hnil]
      have hjj : joinS [['.', '.']] = '.' :: '.' :: ([] : List Char) := rfl
      rw [hjj, dotdot_step k [] (Or.inl rfl), sanLoop]
    · rw [joinS_cons _ _ hnil]
      have hflat : (['.', '.'] : List Char) ++ '/' :: joinS (dotdots j ++ elems) =
          '.' :: '.' :: ('/' :: joinS (dotdots j ++ elems)) := rfl
      rw [hflat, dotdot_step k ('/' :: joinS (dotdots j ++ elems)) (Or.inr rfl)]
      rw [sanLoop, if_pos rfl]
      have := ih elems hgood (k + 1)
      have harith : k + 1 + j = k + (j + 1) := by omega
      rw [harith] at this
      exact this

theorem sanitize_path_slash (rest : List Char) :
    sanitize_path ('/' :: rest) =
      (if (sanLoop true rest ['/'] 1).length = 0 then ['.']
       else (sanLoop true rest ['/'] 1).reverse) := by
  unfold sanitize_path
  simp

theorem sanitize_path_rel (c : Char) (rest : List Char) (hc : ¬ (c = '/')) :
    sanitize_path (c :: rest) =
      (if (sanLoop false (c :: rest) [] 0).length = 0 then ['.']
       else (sanLoop false (c :: rest) [] 0).reverse) := by
  unfold sanitize_path
  simp [hc]

/-- Characterization of `sanitize_path` outputs: every output is ".", or an
absolute path of good elements, or a relative path of `..`s followed by
good elements. -/
theorem sanitize_path_nf (input : List Char) :
    ∃ root k elems, (∀ x ∈ elems, goodElem x) ∧ (root = true → k = 0) ∧
      sanitize_path input =
        (if root = false ∧ k = 0 ∧ elems = [] then ['.'] else buf root k elems) := by
  cases input with
  | nil => exact ⟨false, 0, [], by simp, by simp, rfl⟩
  | cons c rest =>
    by_cases hc : c = '/'
    · subst hc
      obtain ⟨k2, elems2, hg2, hr2, heq⟩ :=
        sanLoop_nf rest.length rest le_rfl true 0 [] (by simp) (by simp)
      refine ⟨true, k2, elems2, hg2, hr2, ?_⟩
      have hk2 := hr2 rfl
      subst hk2
      rw [sanitize_path_slash]
      have hinit : sanLoop true rest ['/'] 1 =
          sanLoop true rest (buf true 0 []).reverse (ddOf true 0) := rfl
      rw [hinit, heq]
      have hb : buf true 0 elems2 = '/' :: joinS elems2 := by simp [buf]
      have hne : ((buf true 0 elems2).reverse).length ≠ 0 := by
        rw [List.length_reverse, hb]
        simp
      rw [if_neg hne, List.reverse_reverse, if_neg (by simp)]
    · obtain ⟨k2, elems2, hg2, hr2, heq⟩ :=
        sanLoop_nf (c :: rest).length (c :: rest) le_rfl false 0 [] (by simp) (by simp)
      refine ⟨false, k2, elems2, hg2, hr2, ?_⟩
      rw [sanitize_path_rel c rest hc]
      have hinit : sanLoop false (c :: rest) [] 0 =
          sanLoop false (c :: rest) (buf false 0 []).reverse (ddOf false 0) := rfl
      rw [hinit, heq]
      by_cases hnil : k2 = 0 ∧ elems2 = []
      · obtain ⟨hk, hel⟩ := hnil
        subst hk
        subst hel
        rw [if_pos (by rfl), if_pos (by exact ⟨rfl, rfl, rfl⟩)]
      · have hbne : buf false k2 elems2 ≠ [] := by
          intro hz
          exact hnil ((buf_eq_nil_iff k2 elems2 (fun x hx => (hg2 x hx).1)).mp hz)
        have hlen : ¬ ((buf false k2 elems2).reverse).length = 0 := by
          rw [List.length_reverse]
          intro hz
          exact hbne (List.eq_nil_of_length_eq_zero hz)
        rw [if_neg hlen, List.reverse_reverse,
          if_neg (by rintro ⟨_, hk, hel⟩; exact hnil ⟨hk, hel⟩)]

theorem joinS_exists_head {L : List (List Char)} (hne : L ≠ [])
    (h0 : ∀ x ∈ L, x ≠ []) (h1 : ∀ x ∈ L, '/' ∉ x) :
    ∃ c rest2, joinS L = c :: rest2 ∧ ¬ (c = '/') := by
  cases L with
  | nil => exact absurd rfl hne
  | cons a L2 =>
    cases a with
    | nil => exact absurd rfl (h0 [] (by simp))
    | cons c a2 =>
      have hcs : ¬ (c = '/') := by
        intro h
        exact h1 (c :: a2) (by simp) (by simp [h])
      cases L2 with
      | nil => exact ⟨c, a2, rfl, hcs⟩
      | cons f fs =>
        refine ⟨c, a2 ++ '/' :: joinS (f :: fs), ?_, hcs⟩
        rw [joinS_cons _ _ (by simp), List.cons_append]

theorem sanitize_path_dot : sanitize_path ['.'] = ['.'] := by
  simp [sanitize_path, sanLoop]

/-- Idempotence of `sanitize_path`. -/
theorem sanitize_path_idem (l : List Char) :
    sanitize_path (sanitize_path l) = sanitize_path l := by
  obtain ⟨root, k, elems, hgood, hroot, heq⟩ := sanitize_path_nf l
  rw [heq]
  by_cases hdot : root = false ∧ k = 0 ∧ elems = []
  · rw [if_pos hdot]
    exact sanitize_path_dot
  · rw [if_neg hdot]
    cases root with
    | true =>
      have hk := hroot rfl
      subst hk
      have hb : buf true 0 elems = '/' :: joinS elems := by simp [buf]
      rw [hb, sanitize_path_slash]
      have hrun : sanLoop true (joinS elems) ['/'] 1 = (buf true 0 elems).reverse := by
        have h0 : sanLoop true (joinS elems) ['/'] 1 =
            sanLoop true (joinS elems) (buf true 0 []).reverse (ddOf true 0) := rfl
        rw [h0]
        have := replay_elems elems hgood true 0 [] (by simp) (by simp)
        rw [List.nil_append] at this
        exact this
      rw [hrun]
      have hne : ((buf true 0 elems).reverse).length ≠ 0 := by
        rw [List.length_reverse, hb]
        simp
      rw [if_neg hne, List.reverse_reverse, hb]
    | false =>
      have hne2 : ¬ (k = 0 ∧ elems = []) := by
        intro hc
        exact hdot ⟨rfl, hc.1, hc.2⟩
      have hb : buf false k elems = joinS (dotdots k ++ elems) := by simp [buf]
      have hLne : dotdots k ++ elems ≠ [] := by
        intro hz
        rcases List.append_eq_nil.mp hz with ⟨hd, he⟩
        exact hne2 ⟨by by_contra h0; exact dotdots_ne_nil h0 hd, he⟩
      have hL0 : ∀ x ∈ dotdots k ++ elems, x ≠ [] := by
        intro x hx
        rcases List.mem_append.mp hx with h | h
        · exact (dotdots_good x h).1
        · exact (hgood x h).1
      have hL1 : ∀ x ∈ dotdots k ++ elems, '/' ∉ x := by
        intro x hx
        rcases List.mem_append.mp hx with h | h
        · exact (dotdots_good x h).2
        · exact (hgood x h).2.1
      obtain ⟨c, rest2, hsplit, hcs⟩ := joinS_exists_head hLne hL0 hL1
      rw [hb, hsplit, sanitize_path_rel c rest2 hcs, ← hsplit]
      have hrun : sanLoop false (joinS (dotdots k ++ elems)) [] 0 =
          (buf false k elems).reverse := by
        have h0 : sanLoop false (joinS (dotdots k ++ elems)) [] 0 =
            sanLoop false (joinS (dotdots k ++ elems))
              (buf false 0 []).reverse (ddOf false 0) := rfl
        rw [h0, replay_dotdots k elems hgood 0, Nat.zero_add]
      rw [hrun]
      have hbne : buf false k elems ≠ [] := by
        intro hz
        exact hne2 ((buf_eq_nil_iff k elems (fun x hx => (hgood x hx).1)).mp hz)
      have hlen : ¬ ((buf false k elems).reverse).length = 0 := by
        rw [List.length_reverse]
        intro hz
        exact hbne (List.eq_nil_of_length_eq_zero hz)
      rw [if_neg hlen, List.reverse_reverse, hb]

/-- Adjacent characters are not both slashes. -/
def noDS (a b : Char) : Prop := ¬ (a = '/' ∧ b = '/')

theorem chain_prepend (a t : List Char) (ha : '/' ∉ a)
    (ht : List.Chain' noDS t) : List.Chain' noDS (a ++ t) := by
  induction a with
  | nil => simpa using ht
  | cons c a2 ih =>
    have hc : c ≠ '/' := fun h => ha (by simp [h])
    have ha2 : '/' ∉ a2 := fun h => ha (by simp [h])
    rw [List.cons_append, List.chain'_cons']
    exact ⟨fun y _ => fun hcon => hc hcon.1, ih ha2⟩

theorem joinS_chain : ∀ (L : List (List Char)), (∀ x ∈ L, x ≠ []) →
    (∀ x ∈ L, '/' ∉ x) → List.Chain' noDS (joinS L) := by
  intro L
  induction L with
  | nil =>
    intro _ _
    have h0 : joinS [] = ([] : List Char) := rfl
    rw [h0]
    exact List.chain'_nil
  | cons a L2 ih =>
    intro h0 h1
    have ha1 : '/' ∉ a := h1 a (by simp)
    cases L2 with
    | nil =>
      have hj : joinS [a] = a := rfl
      rw [hj]
      have := chain_prepend a [] ha1 List.chain'_nil
      simpa using this
    | cons f fs =>
      rw [joinS_cons a (f :: fs) (by simp)]
      apply chain_prepend a _ ha1
      obtain ⟨c, rest2, hsplit, hcs⟩ := joinS_exists_head (L := f :: fs) (by simp)
        (fun x hx => h0 x (by simp [hx])) (fun x hx => h1 x (by simp [hx]))
      rw [List.chain'_cons', hsplit]
      constructor
      · intro y hy
        simp only [List.head?_cons, Option.mem_def, Option.some_inj] at hy
        subst hy
        exact fun hcon => hcs hcon.2
      · rw [← hsplit]
        exact ih (fun x hx => h0 x (by simp [hx])) (fun x hx => h1 x (by simp [hx]))

/-- Every output of `sanitize_path` is free of adjacent slashes. -/
theorem sanitize_chain (l : List Char) : List.Chain' noDS (sanitize_path l) := by
  obtain ⟨root, k, elems, hgood, hroot, heq⟩ := sanitize_path_nf l
  rw [heq]
  by_cases hdot : root = false ∧ k = 0 ∧ elems = []
  · rw [if_pos hdot]
    exact List.chain'_singleton '.'
  · rw [if_neg hdot]
    cases root with
    | true =>
      have hk := hroot rfl
      subst hk
      have hb : buf true 0 elems = '/' :: joinS elems := by simp [buf]
      rw [hb, List.chain'_cons']
      constructor
      · intro y hy
        by_cases hne : elems = []
        · subst hne
          have hj : joinS ([] : List (List Char)) = [] := rfl
          rw [hj] at hy
          simp at hy
        · obtain ⟨c, rest2, hsplit, hcs⟩ := joinS_exists_head hne
            (fun x hx => (hgood x hx).1) (fun x hx => (hgood x hx).2.1)
          rw [hsplit] at hy
          simp only [List.head?_cons, Option.mem_def, Option.some_inj] at hy
          subst hy
          exact fun hcon => hcs hcon.2
      · exact joinS_chain elems (fun x hx => (hgood x hx).1)
          (fun x hx => (hgood x hx).2.1)
    | false =>
      have hb : buf false k elems = joinS (dotdots k ++ elems) := by simp [buf]
      rw [hb]
      refine joinS_chain _ ?_ ?_
      · intro x hx
        rcases List.mem_append.mp hx with h | h
        · exact (dotdots_good x h).1
        · exact (hgood x h).1
      · intro x hx
        rcases List.mem_append.mp hx with h | h
        · exact (dotdots_good x h).2
        · exact (hgood x h).2.1

theorem no_double_slash (l : List Char) : ¬ (['/', '/'] <:+: sanitize_path l) := by
  intro hinf
  have hch : List.Chain' noDS ['/', '/'] := List.Chain'.infix (sanitize_chain l) hinf
  rw [List.chain'_cons] at hch
  exact hch.1 ⟨rfl, rfl⟩

theorem joinS_eq_intercalate : ∀ (L : List (List Char)),
    joinS L = List.intercalate ['/'] L := by
  intro L
  induction L with
  | nil => rfl
  | cons a L2 ih =>
    cases L2 with
    | nil => simp [joinS, List.intercalate, List.intersperse]
    | cons f fs =>
      have hj : joinS (a :: f :: fs) = a ++ '/' :: joinS (f :: fs) := rfl
      rw [hj, ih]
      simp [List.intercalate, List.intersperse]

theorem slash_cons_splitOn (xs : List Char) :
    ('/' :: xs).splitOn '/' = [] :: xs.splitOn '/' := by
  simp [List.splitOn, List.splitOnP_cons]

/-- A "." path element appears in an output of `sanitize_path` only when the
output is the standalone ".". -/
theorem dot_element_only_alone (l : List Char)
    (hmem : ['.'] ∈ (sanitize_path l).splitOn '/') : sanitize_path l = ['.'] := by
  obtain ⟨root, k, elems, hgood, hroot, heq⟩ := sanitize_path_nf l
  rw [heq] at hmem ⊢
  by_cases hdot : root = false ∧ k = 0 ∧ elems = []
  · rw [if_pos hdot]
  · rw [if_neg hdot] at hmem ⊢
    exfalso
    cases root with
    | true =>
      have hk := hroot rfl
      subst hk
      have hb : buf true 0 elems = '/' :: joinS elems := by simp [buf]
      rw [hb, slash_cons_splitOn] at hmem
      rcases List.mem_cons.mp hmem with h | h
      · exact absurd h (by decide)
      · by_cases hne : elems = []
        · subst hne
          have hj : joinS ([] : List (List Char)) = [] := rfl
          rw [hj] at h
          have h0 : ([] : List Char).splitOn '/' = [[]] := rfl
          rw [h0] at h
          rcases List.mem_singleton.mp h with h2
          exact absurd h2 (by decide)
        · rw [joinS_eq_intercalate] at h
          rw [List.splitOn_intercalate elems '/'
            (fun x hx => (hgood x hx).2.1) hne] at h
          exact absurd ((hgood _ h).2.2.1) (by simp)
    | false =>
      have hne2 : ¬ (k = 0 ∧ elems = []) := fun hc => hdot ⟨rfl, hc.1, hc.2⟩
      have hb : buf false k elems = joinS (dotdots k ++ elems) := by simp [buf]
      have hLne : dotdots k ++ elems ≠ [] := by
        intro hz
        rcases List.append_eq_nil.mp hz with ⟨hd, he⟩
        exact hne2 ⟨by by_contra h0; exact dotdots_ne_nil h0 hd, he⟩
      rw [hb, joinS_eq_intercalate] at hmem
      rw [List.splitOn_intercalate (dotdots k ++ elems) '/' (fun x hx => by
        rcases List.mem_append.mp hx with h | h
        · exact (dotdots_good x h).2
        · exact (hgood x h).2.1) hLne] at hmem
      rcases List.mem_append.mp hmem with h | h
      · have := (dotdots_good _ h).1
        unfold dotdots at h
        have h2 := List.eq_of_mem_replicate h
        exact absurd h2 (by decide)
      · exact absurd ((hgood _ h).2.2.1) (by simp)

theorem bt_length_lt (dd : Nat) : ∀ (l : List Char), l ≠ [] →
    (bt dd l).length < l.length := by
  intro l
  induction l with
  | nil => intro h; exact absurd rfl h
  | cons c r ih =>
    intro _
    simp only [bt]
    by_cases h : r.length > dd ∧ c ≠ '/'
    · rw [if_pos h]
      have hr : r ≠ [] := by
        intro hz
        subst hz
        have h0 : (0 : Nat) > dd := by simpa using h.1
        omega
      have := ih hr
      simp only [List.length_cons]
      omega
    · rw [if_neg h]
      simp

theorem bt_length_ge (dd : Nat) : ∀ (l : List Char), dd < l.length →
    dd ≤ (bt dd l).length := by
  intro l
  induction l with
  | nil =>
    intro h
    rw [List.length_nil] at h
    exact absurd h (by omega)
  | cons c r ih =>
    intro hlen
    simp only [bt]
    by_cases h : r.length > dd ∧ c ≠ '/'
    · rw [if_pos h]
      exact ih h.1
    · rw [if_neg h]
      simp only [List.length_cons] at hlen
      omega

theorem dropWhile_slash_head : ∀ (l : List Char),
    l.dropWhile (fun ch => ch != '/') = [] ∨
      ∃ r, l.dropWhile (fun ch => ch != '/') = '/' :: r := by
  intro l
  induction l with
  | nil => exact Or.inl rfl
  | cons a as ih =>
    rw [List.dropWhile_cons]
    by_cases h : a = '/'
    · subst h
      rw [if_neg (by simp)]
      exact Or.inr ⟨as, rfl⟩
    · rw [if_pos (by simp [h])]
      exact ih

/-- Length bound for the loop: the written buffer grows by at most one byte
per input byte, plus a one-byte slack that is available exactly when a
separating slash may still have to be written for the element at the head
of the remaining input. -/
theorem sanLoop_len : ∀ (n : Nat) (inp : List Char), inp.length ≤ n →
    ∀ (root : Bool) (bufR : List Char) (dd s : Nat),
    (root = true → 1 ≤ dd ∧ 1 ≤ bufR.length) →
    (∀ c rest', inp = c :: rest' → ¬ (c = '/') →
      (if root then 1 else 0) < bufR.length → 1 ≤ s) →
    (sanLoop root inp bufR dd).length ≤ bufR.length + inp.length + s := by
  intro n
  induction n with
  | zero =>
    intro inp hlen root bufR dd s _ _
    have hnil : inp = [] := List.eq_nil_of_length_eq_zero (Nat.le_zero.mp hlen)
    subst hnil
    rw [sanLoop]
    omega
  | succ m ih =>
    intro inp hlen root bufR dd s hinv hslack
    cases inp with
    | nil =>
      rw [sanLoop]
      omega
    | cons c rest =>
      have hl2 : rest.length ≤ m := by
        simp only [List.length_cons] at hlen
        omega
      rw [sanLoop]
      by_cases h1 : c = '/'
      · rw [if_pos h1]
        have hb := ih rest hl2 root bufR dd 1 hinv (fun _ _ _ _ _ => le_refl 1)
        simp only [List.length_cons]
        omega
      · rw [if_neg h1]
        by_cases h2 : c = '.' ∧ (rest = [] ∨ rest.head? = some '/')
        · rw [if_pos h2]
          have hb := ih rest hl2 root bufR dd 0 hinv (fun c' r' heq hc' _ => by
            rcases h2.2 with hr | hr
            · rw [hr] at heq
              exact absurd heq (by simp)
            · rw [heq] at hr
              simp at hr
              exact absurd hr hc')
          simp only [List.length_cons]
          omega
        · rw [if_neg h2]
          by_cases h3 : c = '.' ∧ rest.head? = some '.' ∧
              (rest.tail = [] ∨ rest.tail.head? = some '/')
          · rw [if_pos h3]
            have hrest : rest ≠ [] := by
              intro hz
              rw [hz] at h3
              simp at h3
            have htl : rest.tail.length + 1 = rest.length := by
              cases rest with
              | nil => exact absurd rfl hrest
              | cons b bs => simp
            have htailok := h3.2.2
            have hsvac : ∀ (c' : Char) (r' : List Char), rest.tail = c' :: r' →
                ¬ (c' = '/') → True → 1 ≤ 0 := fun c' r' heq hc' _ => by
              rcases htailok with hr | hr
              · rw [hr] at heq
                exact absurd heq (by simp)
              · rw [heq] at hr
                simp at hr
                exact absurd hr hc'
            by_cases h4 : bufR.length > dd
            · rw [if_pos h4]
              have hbne : bufR ≠ [] := by
                intro hz
                rw [hz] at h4
                simp only [List.length_nil] at h4
                omega
              have hlt := bt_length_lt dd bufR hbne
              have hge := bt_length_ge dd bufR h4
              have hinv' : root = true → 1 ≤ dd ∧ 1 ≤ (bt dd bufR).length := by
                intro hr
                obtain ⟨hd1, _⟩ := hinv hr
                exact ⟨hd1, le_trans hd1 hge⟩
              have hb := ih rest.tail (by omega) root (bt dd bufR) dd 0 hinv'
                (fun c' r' heq hc' _ => hsvac c' r' heq hc' trivial)
              simp only [List.length_cons]
              omega
            · rw [if_neg h4]
              by_cases h5 : root = false
              · rw [if_pos h5]
                have hinv' : ∀ (d0 : Nat) (X : List Char),
                    root = true → 1 ≤ d0 ∧ 1 ≤ X.length := by
                  intro d0 X hr
                  rw [h5] at hr
                  simp at hr
                by_cases h6 : bufR.length > 0
                · rw [if_pos h6]
                  have hs1 : 1 ≤ s := hslack c rest rfl h1 (by
                    rw [h5]
                    simpa using h6)
                  have hb := ih rest.tail (by omega) root ('.' :: '.' :: '/' :: bufR)
                    (('.' :: '.' :: '/' :: bufR).length) 0 (hinv' _ _)
                    (fun c' r' heq hc' _ => hsvac c' r' heq hc' trivial)
                  simp only [List.length_cons] at hb ⊢
                  omega
                · rw [if_neg h6]
                  have hb := ih rest.tail (by omega) root ('.' :: '.' :: bufR)
                    (('.' :: '.' :: bufR).length) 0 (hinv' _ _)
                    (fun c' r' heq hc' _ => hsvac c' r' heq hc' trivial)
                  simp only [List.length_cons] at hb ⊢
                  omega
              · rw [if_neg h5]
                have hb := ih rest.tail (by omega) root bufR dd 0 hinv
                  (fun c' r' heq hc' _ => hsvac c' r' heq hc' trivial)
                simp only [List.length_cons]
                omega
          · rw [if_neg h3]
            have hfuel : (rest.dropWhile (fun ch => ch != '/')).length ≤ m :=
              le_trans (List.Sublist.length_le (List.dropWhile_sublist _)) hl2
            have htw : (rest.takeWhile (fun ch => ch != '/')).length +
                (rest.dropWhile (fun ch => ch != '/')).length = rest.length := by
              rw [← List.length_append, List.takeWhile_append_dropWhile]
            have hsvac : ∀ (c' : Char) (r' : List Char),
                rest.dropWhile (fun ch => ch != '/') = c' :: r' →
                ¬ (c' = '/') → 1 ≤ 0 := fun c' r' heq hc' => by
              rcases dropWhile_slash_head rest with hr | ⟨r2, hr⟩
              · rw [hr] at heq
                exact absurd heq (by simp)
              · rw [hr] at heq
                injection heq with hh _
                exact absurd hh.symm hc'
            by_cases h7 : (root = true ∧ bufR.length ≠ 1) ∨
                (root = false ∧ bufR.length ≠ 0)
            · rw [if_pos h7]
              have hinv' : root = true → 1 ≤ dd ∧
                  1 ≤ ((rest.takeWhile (fun ch => ch != '/')).reverse ++
                    c :: '/' :: bufR).length := by
                intro hr
                refine ⟨(hinv hr).1, ?_⟩
                rw [List.length_append, List.length_cons]
                omega
              have hb := ih (rest.dropWhile (fun ch => ch != '/')) hfuel root
                ((rest.takeWhile (fun ch => ch != '/')).reverse ++ c :: '/' :: bufR)
                dd 0 hinv' (fun c' r' heq hc' _ => hsvac c' r' heq hc')
              have hs1 : 1 ≤ s := by
                apply hslack c rest rfl h1
                rcases h7 with ⟨hr, hbb⟩ | ⟨hr, hbb⟩
                · rw [hr]
                  have h9 := (hinv hr).2
                  show 1 < bufR.length
                  omega
                · rw [hr]
                  show 0 < bufR.length
                  omega
              simp only [List.length_append, List.length_reverse, List.length_cons]
                at hb ⊢
              omega
            · rw [if_neg h7]
              have hinv' : root = true → 1 ≤ dd ∧
                  1 ≤ ((rest.takeWhile (fun ch => ch != '/')).reverse ++
                    c :: bufR).length := by
                intro hr
                refine ⟨(hinv hr).1, ?_⟩
                rw [List.length_append, List.length_cons]
                omega
              have hb := ih (rest.dropWhile (fun ch => ch != '/')) hfuel root
                ((rest.takeWhile (fun ch => ch != '/')).reverse ++ c :: bufR)
                dd 0 hinv' (fun c' r' heq hc' _ => hsvac c' r' heq hc')
              simp only [List.length_append, List.length_reverse, List.length_cons]
                at hb ⊢
              omega

/-- The sanitized path is never longer than a nonempty input. -/
theorem sanitize_path_length (l : List Char) (hne : l ≠ []) :
    (sanitize_path l).length ≤ l.length := by
  cases l with
  | nil => exact absurd rfl hne
  | cons c rest =>
    by_cases hc : c = '/'
    · subst hc
      rw [sanitize_path_slash]
      have hb := sanLoop_len rest.length rest le_rfl true ['/'] 1 0
        (fun _ => ⟨le_refl 1, by simp⟩)
        (fun c' r' heq hc' hlt => by simp at hlt)
      by_cases h0 : (sanLoop true rest ['/'] 1).length = 0
      · rw [if_pos h0]
        simp only [List.length_cons, List.length_nil]
        omega
      · rw [if_neg h0, List.length_reverse]
        simp only [List.length_cons, List.length_nil] at hb ⊢
        omega
    · rw [sanitize_path_rel c rest hc]
      have hb := sanLoop_len (c :: rest).length (c :: rest) le_rfl false [] 0 0
        (fun hr => by simp at hr)
        (fun c' r' heq hc' hlt => by simp at hlt)
      by_cases h0 : (sanLoop false (c :: rest) [] 0).length = 0
      · rw [if_pos h0]
        simp only [List.length_cons, List.length_nil]
        omega
      · rw [if_neg h0, List.length_reverse]
        simp only [List.length_cons, List.length_nil] at hb ⊢
        omega

/-- C10, counterexample to the claim as stated: the output of
`sanitize_path` can consist of a "." path element — the input "a/.."
sanitizes to exactly ".", so "the output never contains a '.' element" is
false for the standalone "." output. -/
theorem C10_counterexample :
    sanitize_path ['a', '/', '.', '.'] = ['.'] ∧
    ['.'] ∈ (sanitize_path ['a', '/', '.', '.']).splitOn '/' := by
  have h : sanitize_path ['a', '/', '.', '.'] = ['.'] := by
    simp [sanitize_path, sanLoop, bt, List.takeWhile, List.dropWhile]
  refine ⟨h, ?_⟩
  rw [h]
  decide

/-- C10 (amended): `sanitize_path` maps the empty input to ".", is
idempotent, never produces two adjacent slashes (no empty path element),
produces a "." path element only as the standalone output ".", and for a
nonempty input the output is never longer than the input. -/
theorem C10_sanitize_path :
    sanitize_path [] = ['.'] ∧
    (∀ l, sanitize_path (sanitize_path l) = sanitize_path l) ∧
    (∀ l, ¬ (['/', '/'] <:+: sanitize_path l)) ∧
    (∀ l, ['.'] ∈ (sanitize_path l).splitOn '/' → sanitize_path l = ['.']) ∧
    (∀ l, l ≠ [] → (sanitize_path l).length ≤ l.length) :=
  ⟨rfl, sanitize_path_idem, no_double_slash, dot_element_only_alone,
    sanitize_path_length⟩

/-- C10, witness: the amended theorem applied at concrete inputs, with each
hypothesis discharged there. -/
theorem C10_sanitize_path_witness :
    sanitize_path (sanitize_path ['a', '/', 'b']) = sanitize_path ['a', '/', 'b'] ∧
    sanitize_path ['.'] = ['.'] ∧
    (sanitize_path ['a', '/', 'b']).length ≤ (['a', '/', 'b'] : List Char).length := by
  refine ⟨C10_sanitize_path.2.1 ['a', '/', 'b'], ?_, ?_⟩
  · exact C10_sanitize_path.2.2.2.1 ['.'] (by rw [sanitize_path_dot]; decide)
  · exact C10_sanitize_path.2.2.2.2 ['a', '/', 'b'] (by decide)

end RV32
